import Mathlib

/-!
The proxy service of moddoc (`proxy/proxy.go`).

A shallow embedding of `service.makeZip`, `service.getVersions` and `service.GetDoc`
together with the parts of the Go standard library they rely on (`filepath.Clean`,
`filepath.Dir`, `filepath.Join`, `strings.Split`, `strings.TrimSuffix`,
`strings.Replace`).  The network, the filesystem, the zip reader and the
documentation builder are collected in a record of oracles (`World`); the set of
existing scratch directories is explicit state, and every run records the
sequence of events it performs.
-/

namespace Moddoc

/-! ## Strings and paths -/

/-- A Go string is a sequence of bytes; each list element stands for one byte. -/
abbrev GoString := List Char

/-- A Go `error` value, represented by its message. -/
abbrev Err := GoString

/-- Go `os.IsPathSeparator` on Unix. -/
def isPathSeparator (c : Char) : Bool := c == '/'

/-- The inner loop of the `..` case of `filepath.Clean`:
`for out.w > dotdot && !os.IsPathSeparator(out.index(out.w)) { out.w-- }`. -/
def backtrack (buf : GoString) (dotdot : Nat) : Nat → Nat
  | 0 => 0
  | w + 1 =>
    if w + 1 > dotdot && !isPathSeparator (buf.getD (w + 1) '/') then backtrack buf dotdot w
    else w + 1

/-- The main loop `for r < n` of `filepath.Clean`; `rest` is `path[r:]`, `out` is the
written part `buf[:w]` of the lazy buffer.  Every iteration consumes at least one
byte of `rest`, so `rest.length` iterations are enough. -/
def cleanLoop (rooted : Bool) : Nat → GoString → GoString → Nat → GoString
  | 0, _, out, _ => out
  | fuel + 1, rest, out, dotdot =>
    match rest with
    | [] => out
    | c :: t =>
      if isPathSeparator c then
        -- empty path element
        cleanLoop rooted fuel t out dotdot
      else if c == '.' && (t.isEmpty || isPathSeparator (t.headD '/')) then
        -- . element
        cleanLoop rooted fuel t out dotdot
      else if c == '.' && t.headD '/' == '.' &&
          (t.tail.isEmpty || isPathSeparator (t.tail.headD '/')) then
        -- .. element: remove to last separator
        if out.length > dotdot then
          cleanLoop rooted fuel t.tail (out.take (backtrack out dotdot (out.length - 1))) dotdot
        else if !rooted then
          let out1 := (if out.length > 0 then out ++ ['/'] else out) ++ ['.', '.']
          cleanLoop rooted fuel t.tail out1 out1.length
        else
          cleanLoop rooted fuel t.tail out dotdot
      else
        -- real path element: add slash if needed, copy element
        let out1 :=
          if (rooted && out.length != 1) || (!rooted && out.length != 0) then out ++ ['/']
          else out
        cleanLoop rooted fuel (rest.dropWhile (fun b => !isPathSeparator b))
          (out1 ++ rest.takeWhile (fun b => !isPathSeparator b)) dotdot

/-- Go `filepath.Clean` on Unix (no volume name, `FromSlash` is the identity). -/
def Clean (path : GoString) : GoString :=
  if path.isEmpty then ['.']
  else
    let rooted := isPathSeparator (path.headD '.')
    let out :=
      if rooted then cleanLoop rooted path.length path.tail ['/'] 1
      else cleanLoop rooted path.length path [] 0
    if out.length == 0 then ['.'] else out

/-- Go `filepath.Dir` on Unix: drop the bytes after the last separator, then `Clean`. -/
def Dir (path : GoString) : GoString :=
  Clean (path.rdropWhile (fun b => !isPathSeparator b))

/-- Go `filepath.Join` of two elements on Unix: empty elements are ignored, the rest is
joined with the separator and cleaned. -/
def Join (a b : GoString) : GoString :=
  if a.isEmpty then (if b.isEmpty then [] else Clean b)
  else if b.isEmpty then Clean a
  else Clean (a ++ '/' :: b)

/-- Go `strings.TrimSuffix`. -/
def TrimSuffix (s suffix : GoString) : GoString :=
  if suffix.isSuffixOf s then s.take (s.length - suffix.length) else s

/-- Go `strings.Replace(s, old, new, -1)` for one-byte `old` and `new`. -/
def Replace (s : GoString) (old new : Char) : GoString :=
  s.map (fun c => if c == old then new else c)

/-- Go `strings.Split(s, sep)` for a one-byte separator: the pieces of `s` between
occurrences of `sep`, always at least one piece. -/
def Split (sep : Char) : GoString → List GoString
  | [] => [[]]
  | c :: cs =>
    if c == sep then [] :: Split sep cs
    else
      match Split sep cs with
      | [] => [[c]]
      | h :: t => (c :: h) :: t

/-! ## The outside world -/

/-- Result of a fallible library call returning `(value, error)`. -/
inductive Result (α : Type) where
  | ok (val : α)
  | err (e : Err)
  deriving DecidableEq, Repr

/-- What `fetch.Fetch` gives back: an error, or a response with its status code and a
body whose reading yields bytes or fails. -/
inductive FetchResult where
  | fail (e : Err)
  | resp (StatusCode : Nat) (Body : Result GoString)
  deriving DecidableEq, Repr

/-- One entry of a zip archive: its name, the error of `f.Open()` if any, and the
result of `ioutil.ReadAll` on the opened entry. -/
structure ZipEntry where
  Name : GoString
  openErr : Option Err
  readAll : Result GoString
  deriving DecidableEq, Repr

/-- The `file` struct of `proxy.go`. -/
structure file where
  Name : GoString
  Content : GoString
  deriving DecidableEq, Repr

/-- The fields of `doc.Documentation` that `GetDoc` reads or writes, with the identity
fields the builder fills in. -/
structure Documentation where
  PackageName : GoString
  ModuleVersion : GoString
  Versions : List GoString
  ModuleRoot : GoString
  ImportPath : GoString
  Licenses : List GoString
  deriving DecidableEq, Repr

/-- Everything `proxy.go` calls outside itself. -/
structure World where
  /-- The call `fetch.Fetch(ctx, url)`. -/
  Fetch : GoString → FetchResult
  /-- The call `ioutil.TempDir("", pattern)`: the name of the fresh directory, or an error. -/
  TempDir : GoString → Result GoString
  /-- The call `os.Create(file)`. -/
  Create : GoString → Option Err
  /-- The write side of `io.CopyBuffer` into the scratch file. -/
  writeErr : Option Err
  /-- The call `os.Open(fileName)`. -/
  Open : GoString → Option Err
  /-- The call `os.Stat(fileName)`. -/
  Stat : GoString → Option Err
  /-- The call `zip.NewReader` on the bytes saved in the scratch file. -/
  NewReader : GoString → Result (List ZipEntry)
  /-- The call `builder.getGoDoc(ctx, mod, ver, subpkg, files)`. -/
  getGoDoc : GoString → GoString → GoString → List file → Result Documentation
  /-- The call `licenses.NewDetector(mod, ver, zipReader, nil).ModuleLicenses()`. -/
  ModuleLicenses : GoString → GoString → List ZipEntry → List GoString
  /-- The call `module.DecodePath(modRoot)`, its error dropped. -/
  DecodePath : GoString → GoString

/-- The scratch directories that exist on the filesystem. -/
abbrev FS := List GoString

/-- Go `os.RemoveAll(dir)` on the set of scratch directories; the empty name removes
nothing. -/
def RemoveAll (fs : FS) (dir : GoString) : FS :=
  fs.filter (fun d => d != dir)

/-- The observable steps of a run, in program order. -/
inductive Event where
  | tempDir (dir : GoString)
  | probe (path : GoString)
  | createFile (name : GoString)
  | copyBody
  | startVersions (modRoot : GoString)
  | openArchive (name : GoString)
  | readEntry (name : GoString)
  | build
  | licenses
  | recvVersions
  | removeAll (dir : GoString)
  deriving DecidableEq, Repr

/-- How a Go function call ends: it returns, it panics, or (in the model) the loop
budget is used up before it ends. -/
inductive Outcome (α : Type) where
  | ret (val : α)
  | panic
  | outOfFuel
  deriving DecidableEq, Repr

/-- A run: how it ended, the scratch directories left behind, the events performed. -/
structure Run (α : Type) where
  out : Outcome α
  fs : FS
  trace : List Event
  deriving DecidableEq, Repr

/-! ## The service -/

/-- The `service` struct. -/
structure service where
  url : GoString
  deriving DecidableEq, Repr

/-- The constructor `NewService`: the base URL without one trailing slash. -/
def NewService (url : GoString) : service :=
  { url := TrimSuffix url ['/'] }

/-- The method `service.fetch`: `s.url + "/" + mod + "/@v/" + ver + ext`. -/
def service.fetch (s : service) (w : World) (mod ver ext : GoString) : FetchResult :=
  w.Fetch (s.url ++ ['/'] ++ mod ++ "/@v/".toList ++ ver ++ ext)

/-- The goroutine of `service.getVersions`, as the list of values sent on the channel
before it is closed (the deferred `close(ch)` runs on every path). -/
def service.getVersions (s : service) (w : World) (mod : GoString) : List (List GoString) :=
  match s.fetch w mod "list".toList [] with
  | .fail _ => []
  | .resp code body =>
    if code != 200 then []
    else
      match body with
      | .err _ => []
      | .ok bts =>
        let vs := Split '\n' bts
        [if vs.length > 0 then vs.take (vs.length - 1) else vs]

/-- Receiving once from the channel `getVersions` returned: the value sent, or the zero
value (`nil`) when the channel was closed without a send. -/
def recv (sent : List (List GoString)) : List GoString :=
  sent.headD []

/-- How the `for` loop of `makeZip` ends. -/
inductive LoopResult where
  /-- Leaving by `break` with status 200: the winning path, `subdir`, and the response body. -/
  | found (path subdir : GoString) (Body : Result GoString)
  /-- Leaving by `return "", "", "", fmt.Errorf("invalid path: %v", mod)`. -/
  | invalidPath
  /-- Leaving by `return "", "", "", err` after `s.fetch` failed. -/
  | fetchErr (e : Err)
  /-- The slice `mod[len(path)+1:]` with `len(path)+1 > len(mod)`: slice bounds out of range. -/
  | panic
  | outOfFuel
  deriving DecidableEq, Repr

/-- The `for` loop of `makeZip` (lines 134-147), started at `path`, `subdir`; it returns
how the loop ended and the paths probed, in order. -/
def makeZipLoop (s : service) (w : World) (mod ver : GoString) :
    Nat → GoString → GoString → LoopResult × List GoString
  | 0, _, _ => (.outOfFuel, [])
  | fuel + 1, path, subdir =>
    if path = ['.'] then (.invalidPath, [])
    else
      match s.fetch w path ver ".zip".toList with
      | .fail e => (.fetchErr e, [path])
      | .resp code body =>
        if code = 200 then (.found path subdir body, [path])
        else
          let path1 := Dir path
          if path1.length + 1 > mod.length then (.panic, [path])
          else
            let r := makeZipLoop s w mod ver fuel path1 (mod.drop (path1.length + 1))
            (r.1, path :: r.2)

/-- The four results `(dir, file, subdir, err)` of `makeZip`. -/
structure MakeZipRet where
  dir : GoString
  file : GoString
  subdir : GoString
  err : Option Err
  deriving DecidableEq, Repr

/-- The method `service.makeZip`: create the scratch directory, resolve, save the body
of the winning response to `source.zip`. -/
def service.makeZip (s : service) (w : World) (fuel : Nat) (fs : FS) (mod ver : GoString) :
    Run MakeZipRet :=
  match w.TempDir (Replace mod '/' '_' ++ ver) with
  | .err e => ⟨.ret ⟨[], [], [], some e⟩, fs, []⟩
  | .ok dir =>
    let fs1 := dir :: fs
    let loop := makeZipLoop s w mod ver fuel mod []
    let tr := Event.tempDir dir :: loop.2.map Event.probe
    match loop.1 with
    | .outOfFuel => ⟨.outOfFuel, fs1, tr⟩
    | .panic => ⟨.panic, fs1, tr⟩
    | .invalidPath => ⟨.ret ⟨[], [], [], some ("invalid path: ".toList ++ mod)⟩, fs1, tr⟩
    | .fetchErr e => ⟨.ret ⟨[], [], [], some e⟩, fs1, tr⟩
    | .found _ subdir body =>
      let file := Join dir "source.zip".toList
      match w.Create file with
      | some e => ⟨.ret ⟨dir, file, [], some e⟩, fs1, tr ++ [.createFile file]⟩
      | none =>
        let copyErr : Option Err :=
          match body with
          | .err e => some e
          | .ok _ => w.writeErr
        ⟨.ret ⟨dir, file, subdir, copyErr⟩, fs1, tr ++ [.createFile file, .copyBody]⟩

/-- Lines 40-44 of `GetDoc`: the module root derived from `mod` and `subpkg`. -/
def moduleRoot (mod subpkg : GoString) : GoString :=
  if subpkg ≠ [] then TrimSuffix (mod.take (mod.length - subpkg.length)) ['/'] else mod

/-- The extraction loop of `GetDoc` (lines 66-79): every entry is opened and read in
full; the first failure aborts.  The second component lists the entries touched. -/
def readEntries : List ZipEntry → List file → Result (List file) × List Event
  | [], files => (.ok files, [])
  | f :: rest, files =>
    match f.openErr with
    | some e => (.err e, [.readEntry f.Name])
    | none =>
      match f.readAll with
      | .err e => (.err e, [.readEntry f.Name])
      | .ok bts =>
        let r := readEntries rest (files ++ [{ Name := f.Name, Content := bts }])
        (r.1, .readEntry f.Name :: r.2)

/-- The two results `(*Documentation, error)` of `GetDoc`. -/
structure GetDocRet where
  doc : Option Documentation
  err : Option Err
  deriving DecidableEq, Repr

/-- Lines 51-91 of `GetDoc`, the part that runs under the deferred `os.RemoveAll(dir)`;
`saved` is what the scratch file holds, `sent` is the version channel. -/
def getDocBody (w : World) (mod ver subpkg modRoot fileName : GoString) (saved : GoString)
    (sent : List (List GoString)) : GetDocRet × List Event :=
  match w.Open fileName with
  | some e => (⟨none, some e⟩, [.openArchive fileName])
  | none =>
    match w.Stat fileName with
    | some e => (⟨none, some e⟩, [.openArchive fileName])
    | none =>
      match w.NewReader saved with
      | .err e => (⟨none, some e⟩, [.openArchive fileName])
      | .ok entries =>
        let ex := readEntries entries []
        match ex.1 with
        | .err e => (⟨none, some e⟩, .openArchive fileName :: ex.2)
        | .ok files =>
          match w.getGoDoc mod ver subpkg files with
          | .err e => (⟨none, some e⟩, .openArchive fileName :: ex.2 ++ [.build])
          | .ok proxyDoc =>
            (⟨some { proxyDoc with
                      Licenses := w.ModuleLicenses mod ver entries
                      ModuleRoot := w.DecodePath modRoot
                      Versions := recv sent }, none⟩,
              .openArchive fileName :: ex.2 ++ [.build, .licenses, .recvVersions])

/-- The bytes `makeZip` left in the scratch file: the body of the winning response. -/
def savedBytes (s : service) (w : World) (fuel : Nat) (mod ver : GoString) : GoString :=
  match (makeZipLoop s w mod ver fuel mod []).1 with
  | .found _ _ (.ok bts) => bts
  | _ => []

/-- The method `service.GetDoc`. -/
def service.GetDoc (s : service) (w : World) (fuel : Nat) (fs : FS) (mod ver : GoString) :
    Run GetDocRet :=
  let mz := s.makeZip w fuel fs mod ver
  match mz.out with
  | .outOfFuel => ⟨.outOfFuel, mz.fs, mz.trace⟩
  | .panic => ⟨.panic, mz.fs, mz.trace⟩
  | .ret r =>
    match r.err with
    | some e => ⟨.ret ⟨none, some ("could not make zip: ".toList ++ e)⟩, mz.fs, mz.trace⟩
    | none =>
      if r.subdir.length > mod.length then ⟨.panic, mz.fs, mz.trace⟩
      else
        let modRoot := moduleRoot mod r.subdir
        let versCh := s.getVersions w modRoot
        -- defer os.RemoveAll(dir); the `err` tested on line 47 is nil here
        let body := getDocBody w mod ver r.subdir modRoot r.file (savedBytes s w fuel mod ver) versCh
        ⟨.ret body.1, RemoveAll mz.fs r.dir,
          mz.trace ++ [.startVersions modRoot] ++ body.2 ++ [.removeAll r.dir]⟩

/-! ## Vocabulary of the statements -/

/-- The shortening chain `P, Dir(P), Dir(Dir(P)), ...` of an import path. -/
def candidate (mod : GoString) : Nat → GoString
  | 0 => mod
  | j + 1 => Dir (candidate mod j)

/-- The zip probe of a candidate path: `s.fetch(ctx, path, ver, ".zip")`. -/
def service.probe (s : service) (w : World) (ver path : GoString) : FetchResult :=
  s.fetch w path ver ".zip".toList

/-- The response has status 200. -/
def FetchResult.is200 : FetchResult → Bool
  | .resp code _ => code == 200
  | .fail _ => false

/-- There is a response and its status is not 200. -/
def FetchResult.isNon200 : FetchResult → Bool
  | .resp code _ => code != 200
  | .fail _ => false

/-- The request failed with a transport error. -/
def FetchResult.isFail : FetchResult → Bool
  | .resp _ _ => false
  | .fail _ => true

/-- The events of resolution and download, all performed inside `makeZip`. -/
def Event.isRetrieval : Event → Bool
  | .tempDir _ => true
  | .probe _ => true
  | .createFile _ => true
  | .copyBody => true
  | _ => false

/-- The start of the Version Lister. -/
def Event.isStart : Event → Bool
  | .startVersions _ => true
  | _ => false

/-- Whether the last byte read is a separator once `rest` has been consumed, given
whether the byte before `rest` is one. -/
def lastIsSep (afterSep : Bool) : GoString → Bool
  | [] => afterSep
  | c :: t => lastIsSep (isPathSeparator c) t

/-! ## Concrete worlds -/

/-- A proxy that answers 200 with `body` on the listed URLs and 404 elsewhere. -/
def proxyServing (urls : List GoString) (body : GoString) : GoString → FetchResult :=
  fun u => if u ∈ urls then .resp 200 (.ok body) else .resp 404 (.ok [])

/-- A world in which every local call succeeds: the archive has the single entry
`a.go`, the builder returns a page for the import path, and the network is `Fetch`. -/
def calmWorld (Fetch : GoString → FetchResult) : World where
  Fetch := Fetch
  TempDir := fun pattern => .ok ("/tmp/".toList ++ pattern)
  Create := fun _ => none
  writeErr := none
  Open := fun _ => none
  Stat := fun _ => none
  NewReader := fun _ => .ok [⟨"a.go".toList, none, .ok "package a".toList⟩]
  getGoDoc := fun mod ver _ _ => .ok ⟨[], ver, [], [], mod, []⟩
  ModuleLicenses := fun _ _ _ => []
  DecodePath := fun p => p

/-- The service used in the examples. -/
def svc : service := NewService "http://p/".toList

/-- The version used in the examples. -/
def v1 : GoString := "v1.0.0".toList

/-- The proxy of the end-to-end scenario: only `example.com/mod` has a zip, and its
version list is `v1.0.0`, `v1.1.0`, `v2.0.0`. -/
def scenarioWorld : World :=
  calmWorld (fun u =>
    if u = "http://p/example.com/mod/@v/v1.0.0.zip".toList then .resp 200 (.ok "PK".toList)
    else if u = "http://p/example.com/mod/@v/list".toList then
      .resp 200 (.ok "v1.0.0\nv1.1.0\nv2.0.0\n".toList)
    else .resp 404 (.ok []))

/-- A proxy that has nothing: every request answers 404. -/
def emptyWorld : World := calmWorld (fun _ => .resp 404 (.ok []))

/-- A proxy whose only zip is at the path `"."`. -/
def dotWorld : World := calmWorld (proxyServing ["http://p/./@v/v1.0.0.zip".toList] "PK".toList)

/-- A proxy whose only zip is at the path `a/b`. -/
def abWorld : World := calmWorld (proxyServing ["http://p/a/b/@v/v1.0.0.zip".toList] "PK".toList)

/-- A proxy whose connection breaks on the path `a/b` and that has nothing else. -/
def brokenWorld : World :=
  calmWorld (fun u =>
    if u = "http://p/a/b/@v/v1.0.0.zip".toList then .fail "connection reset".toList
    else .resp 404 (.ok []))

/-- A proxy with the zip of `example.com/mod` whose version list is unavailable. -/
def noListWorld : World :=
  calmWorld (proxyServing ["http://p/example.com/mod/@v/v1.0.0.zip".toList] "PK".toList)

/-- A proxy whose version list of `m` lacks the final newline. -/
def unterminatedWorld : World :=
  calmWorld (fun u =>
    if u = "http://p/m/@v/list".toList then .resp 200 (.ok "v1.0.0\nv1.1.0".toList)
    else .resp 404 (.ok []))

/-- A proxy whose version list of `m` is the empty body. -/
def blankListWorld : World :=
  calmWorld (fun u =>
    if u = "http://p/m/@v/list".toList then .resp 200 (.ok [])
    else .resp 404 (.ok []))

/-! ## Facts about `filepath.Clean` and `filepath.Dir` -/

theorem backtrack_le (buf : GoString) (dotdot w : Nat) : backtrack buf dotdot w ≤ w := by
  induction w with
  | zero => simp [backtrack]
  | succ w ih =>
    unfold backtrack
    split
    · omega
    · omega

theorem lastIsSep_element (a : Bool) (c : Char) (t : GoString) (hc : isPathSeparator c = false) :
    lastIsSep a (c :: t) =
      lastIsSep false ((c :: t).dropWhile (fun b => !isPathSeparator b)) := by
  induction t generalizing a c with
  | nil => simp [lastIsSep, List.dropWhile, hc]
  | cons d t ih =>
    by_cases hd : isPathSeparator d = true
    · simp [lastIsSep, List.dropWhile, hc, hd]
    · have hd1 : isPathSeparator d = false := by simpa using hd
      have := ih (isPathSeparator c) d hd1
      simp only [lastIsSep] at this ⊢
      rw [this]
      simp [List.dropWhile, hc, hd1]

theorem length_take_drop_while (p : Char → Bool) (l : GoString) :
    (l.takeWhile p).length + (l.dropWhile p).length = l.length := by
  have h := congrArg List.length (List.takeWhile_append_dropWhile p l)
  rw [List.length_append] at h
  exact h

theorem dropWhile_head_sep (l : GoString) :
    l.dropWhile (fun b => !isPathSeparator b) = [] ∨
      isPathSeparator ((l.dropWhile (fun b => !isPathSeparator b)).headD '/') = true := by
  induction l with
  | nil => simp
  | cons c t ih =>
    by_cases hc : isPathSeparator c = true
    · right; simp [List.dropWhile, hc]
    · have hc1 : isPathSeparator c = false := by simpa using hc
      simpa [List.dropWhile, hc1] using ih

/-- The invariant of the main loop of `Clean`: having read `r` bytes, the buffer holds
at most `r` bytes, and strictly fewer right after a separator (unless it holds just the
root).  Hence the output is no longer than the input, and shorter when the input ends
in a separator. -/
theorem cleanLoop_length (rooted : Bool) :
    ∀ (fuel : Nat) (rest out : GoString) (dotdot r : Nat) (afterSep : Bool),
      out.length ≤ r →
      (afterSep = true → out.length < r ∨ (rooted = true ∧ out.length = 1)) →
      (afterSep = true ∨ r = 0 ∨ rest = [] ∨ isPathSeparator (rest.headD '/') = true) →
      (rooted = true → 1 ≤ r) →
      (cleanLoop rooted fuel rest out dotdot).length ≤ r + rest.length ∧
      (lastIsSep afterSep rest = true →
        (cleanLoop rooted fuel rest out dotdot).length < r + rest.length ∨
        (rooted = true ∧ (cleanLoop rooted fuel rest out dotdot).length = 1)) := by
  intro fuel
  induction fuel with
  | zero =>
    intro rest out dotdot r afterSep h1 h2 _ _
    simp only [cleanLoop]
    refine ⟨by omega, fun hl => ?_⟩
    cases rest with
    | nil => simpa using h2 (by simpa [lastIsSep] using hl)
    | cons c t => left; simp; omega
  | succ fuel ih =>
    intro rest out dotdot r afterSep h1 h2 h3 h4
    cases rest with
    | nil =>
      simp only [cleanLoop]
      exact ⟨by omega, fun hl => by simpa using h2 (by simpa [lastIsSep] using hl)⟩
    | cons c t =>
      rw [cleanLoop]
      by_cases hsep : isPathSeparator c = true
      · -- separator
        rw [if_pos hsep]
        have := ih t out dotdot (r + 1) true (by omega) (fun _ => Or.inl (by omega))
          (Or.inl rfl) (fun _ => by omega)
        simp only [lastIsSep, hsep, List.length_cons]
        constructor
        · have := this.1; omega
        · intro hl
          rcases this.2 hl with h | h
          · left; omega
          · right; exact h
      rw [if_neg hsep]
      have hsep1 : isPathSeparator c = false := by simpa using hsep
      have h3a : afterSep = true ∨ r = 0 := by
        rcases h3 with h | h | h | h
        · exact Or.inl h
        · exact Or.inr h
        · simp at h
        · simp [hsep1] at h
      have hlt : 0 < out.length → out.length < r ∨ (rooted = true ∧ out.length = 1) := by
        intro hpos
        rcases h3a with h | h
        · exact h2 h
        · omega
      by_cases hdot : (c == '.' && (t.isEmpty || isPathSeparator (t.headD '/'))) = true
      · -- . element
        rw [if_pos hdot]
        have ht : t = [] ∨ isPathSeparator (t.headD '/') = true := by
          simp only [Bool.and_eq_true, Bool.or_eq_true, List.isEmpty_iff] at hdot
          exact hdot.2
        have := ih t out dotdot (r + 1) false (by omega) (fun h => by simp at h)
          (Or.inr (Or.inr ht)) (fun _ => by omega)
        simp only [lastIsSep, hsep1, List.length_cons]
        constructor
        · have := this.1; omega
        · intro hl
          rcases this.2 hl with h | h
          · left; omega
          · right; exact h
      rw [if_neg hdot]
      by_cases hdd : (c == '.' && t.headD '/' == '.' &&
          (t.tail.isEmpty || isPathSeparator (t.tail.headD '/'))) = true
      · -- .. element
        rw [if_pos hdd]
        cases t with
        | nil => simp at hdd
        | cons d t2 =>
          simp only [Bool.and_eq_true, Bool.or_eq_true, List.isEmpty_iff, List.headD_cons,
            List.tail_cons, beq_iff_eq] at hdd
          obtain ⟨⟨_, hd⟩, ht2⟩ := hdd
          have hd1 : isPathSeparator d = false := by rw [hd]; decide
          simp only [lastIsSep, hd1, List.length_cons, List.tail_cons]
          have fin : ∀ out2 : GoString, ∀ dd : Nat, out2.length ≤ r + 2 →
              (cleanLoop rooted fuel t2 out2 dd).length ≤ r + (t2.length + 1 + 1) ∧
              (lastIsSep false t2 = true →
                (cleanLoop rooted fuel t2 out2 dd).length < r + (t2.length + 1 + 1) ∨
                (rooted = true ∧ (cleanLoop rooted fuel t2 out2 dd).length = 1)) := by
            intro out2 dd hle
            have := ih t2 out2 dd (r + 2) false hle (fun h => by simp at h)
              (Or.inr (Or.inr ht2)) (fun _ => by omega)
            constructor
            · have := this.1; omega
            · intro hl
              rcases this.2 hl with h | h
              · left; omega
              · right; exact h
          by_cases hbt : out.length > dotdot
          · rw [if_pos hbt]
            apply fin
            rw [List.length_take]
            omega
          · rw [if_neg hbt]
            by_cases hnr : (!rooted) = true
            · rw [if_pos hnr]
              have hr : rooted = false := by simpa using hnr
              apply fin
              by_cases hpos : out.length > 0
              · rw [if_pos hpos]
                rcases hlt hpos with h | h
                · simp; omega
                · rw [hr] at h; simp at h
              · rw [if_neg hpos]
                simp; omega
            · rw [if_neg hnr]
              apply fin
              omega
      rw [if_neg hdd]
      -- real path element
      have hstep := ih ((c :: t).dropWhile (fun b => !isPathSeparator b))
      rw [lastIsSep_element afterSep c t hsep1]
      have hlen := length_take_drop_while (fun b => !isPathSeparator b) (c :: t)
      have fin : ∀ out1 : GoString, out1.length ≤ r →
          (cleanLoop rooted fuel ((c :: t).dropWhile (fun b => !isPathSeparator b))
            (out1 ++ (c :: t).takeWhile (fun b => !isPathSeparator b)) dotdot).length
              ≤ r + (c :: t).length ∧
          (lastIsSep false ((c :: t).dropWhile (fun b => !isPathSeparator b)) = true →
            (cleanLoop rooted fuel ((c :: t).dropWhile (fun b => !isPathSeparator b))
              (out1 ++ (c :: t).takeWhile (fun b => !isPathSeparator b)) dotdot).length
                < r + (c :: t).length ∨
            (rooted = true ∧
              (cleanLoop rooted fuel ((c :: t).dropWhile (fun b => !isPathSeparator b))
                (out1 ++ (c :: t).takeWhile (fun b => !isPathSeparator b)) dotdot).length
                  = 1)) := by
        intro out1 hle
        have := hstep (out1 ++ (c :: t).takeWhile (fun b => !isPathSeparator b)) dotdot
          (r + ((c :: t).takeWhile (fun b => !isPathSeparator b)).length) false
          (by rw [List.length_append]; omega) (fun h => by simp at h)
          (Or.inr (Or.inr (dropWhile_head_sep (c :: t)))) (fun h => by have := h4 h; omega)
        constructor
        · have := this.1; omega
        · intro hl
          rcases this.2 hl with h | h
          · left; omega
          · right; exact h
      by_cases hadd : ((rooted && out.length != 1) || (!rooted && out.length != 0)) = true
      · simp only [if_pos hadd]
        apply fin
        rw [List.length_append, List.length_singleton]
        rcases Nat.eq_zero_or_pos out.length with h0 | h0
        · cases rooted
          · rw [h0] at hadd; simp at hadd
          · have := h4 rfl
            omega
        · rcases hlt h0 with h | h
          · omega
          · rw [h.1, h.2] at hadd; simp at hadd
      · simp only [if_neg hadd]
        apply fin
        exact h1

theorem length_dropWhile_le (f : Char → Bool) (l : GoString) :
    (l.dropWhile f).length ≤ l.length := by
  have := length_take_drop_while f l
  omega

/-- The loop of `Clean` needs no more iterations than there are bytes left: a larger
budget changes nothing, so the budget `len(path)` that `Clean` passes never cuts the
loop short. -/
theorem cleanLoop_fuel (rooted : Bool) :
    ∀ (fuel : Nat) (rest out : GoString) (dotdot : Nat), rest.length ≤ fuel →
      cleanLoop rooted (fuel + 1) rest out dotdot = cleanLoop rooted fuel rest out dotdot := by
  intro fuel
  induction fuel with
  | zero =>
    intro rest out dotdot h
    have : rest = [] := List.length_eq_zero.mp (by omega)
    subst this
    simp [cleanLoop]
  | succ fuel ih =>
    intro rest out dotdot h
    cases rest with
    | nil => simp [cleanLoop]
    | cons c t =>
      have ht : t.length ≤ fuel := by simpa using h
      have htt : t.tail.length ≤ fuel := by
        have := List.length_tail t
        omega
      rw [cleanLoop, cleanLoop]
      by_cases hsep : isPathSeparator c = true
      · rw [if_pos hsep, if_pos hsep]; exact ih _ _ _ ht
      rw [if_neg hsep, if_neg hsep]
      by_cases hdot : (c == '.' && (t.isEmpty || isPathSeparator (t.headD '/'))) = true
      · rw [if_pos hdot, if_pos hdot]; exact ih _ _ _ ht
      rw [if_neg hdot, if_neg hdot]
      by_cases hdd : (c == '.' && t.headD '/' == '.' &&
          (t.tail.isEmpty || isPathSeparator (t.tail.headD '/'))) = true
      · rw [if_pos hdd, if_pos hdd]
        by_cases hbt : out.length > dotdot
        · rw [if_pos hbt, if_pos hbt]; exact ih _ _ _ htt
        · rw [if_neg hbt, if_neg hbt]
          by_cases hnr : (!rooted) = true
          · rw [if_pos hnr, if_pos hnr]; exact ih _ _ _ htt
          · rw [if_neg hnr, if_neg hnr]; exact ih _ _ _ htt
      rw [if_neg hdd, if_neg hdd]
      apply ih
      have hc1 : isPathSeparator c = false := by simpa using hsep
      have hdw : List.dropWhile (fun b => !isPathSeparator b) (c :: t) =
          List.dropWhile (fun b => !isPathSeparator b) t := by
        simp [List.dropWhile, hc1]
      rw [hdw]
      have := length_dropWhile_le (fun b => !isPathSeparator b) t
      omega

theorem lastIsSep_concat (a : Bool) (l : GoString) (c : Char) :
    lastIsSep a (l ++ [c]) = isPathSeparator c := by
  induction l generalizing a with
  | nil => simp [lastIsSep]
  | cons d t ih => simpa [lastIsSep] using ih (isPathSeparator d)

theorem rdropWhile_lastIsSep (p : GoString)
    (h : p.rdropWhile (fun b => !isPathSeparator b) ≠ []) :
    lastIsSep false (p.rdropWhile (fun b => !isPathSeparator b)) = true := by
  have hlast := List.rdropWhile_last_not (fun b => !isPathSeparator b) p h
  rw [← List.dropLast_append_getLast h, lastIsSep_concat]
  simpa using hlast

theorem Clean_ne_nil (p : GoString) : Clean p ≠ [] := by
  unfold Clean
  by_cases h1 : p.isEmpty = true
  · simp [h1]
  · simp only [h1, Bool.false_eq_true, if_false]
    generalize (if isPathSeparator (p.headD '.') = true then
      cleanLoop (isPathSeparator (p.headD '.')) p.length p.tail ['/'] 1
      else cleanLoop (isPathSeparator (p.headD '.')) p.length p [] 0) = out
    cases out with
    | nil => simp
    | cons c t => simp

theorem Clean_length_pos (p : GoString) : 1 ≤ (Clean p).length := by
  have := Clean_ne_nil p
  cases h : Clean p with
  | nil => exact absurd h this
  | cons c t => simp

/-- Cleaning a path that ends in a separator gives a strictly shorter path, or a path
of one byte. -/
theorem Clean_length_of_lastIsSep (p : GoString) (hl : lastIsSep false p = true) :
    (Clean p).length < p.length ∨ (Clean p).length = 1 := by
  cases p with
  | nil => simp [lastIsSep] at hl
  | cons c t =>
    unfold Clean
    simp only [List.isEmpty_cons, Bool.false_eq_true, if_false, List.headD_cons, List.tail_cons,
      List.length_cons]
    by_cases hc : isPathSeparator c = true
    · simp only [hc, if_true]
      have := cleanLoop_length true (t.length + 1) t ['/'] 1 1 true (by simp)
        (fun _ => Or.inr ⟨rfl, by simp⟩) (Or.inl rfl) (fun _ => le_refl 1)
      have hl2 : lastIsSep true t = true := by simpa [lastIsSep, hc] using hl
      split_ifs with h0
      · right; simp
      · rcases this.2 hl2 with h | h
        · left; omega
        · right; exact h.2
    · have hc1 : isPathSeparator c = false := by simpa using hc
      simp only [hc1, Bool.false_eq_true, if_false]
      have := cleanLoop_length false (t.length + 1) (c :: t) [] 0 0 false (by simp)
        (fun h => by simp at h) (Or.inr (Or.inl rfl)) (fun h => by simp at h)
      split_ifs with h0
      · right; simp
      · rcases this.2 hl with h | h
        · left; simpa using h
        · simp at h

theorem Dir_ne_nil (p : GoString) : Dir p ≠ [] := Clean_ne_nil _

theorem Dir_length_pos (p : GoString) : 1 ≤ (Dir p).length := Clean_length_pos _

/-- Applying `Dir` gives a strictly shorter path, or a path of one byte. -/
theorem Dir_length (p : GoString) : (Dir p).length < p.length ∨ (Dir p).length = 1 := by
  unfold Dir
  by_cases h : p.rdropWhile (fun b => !isPathSeparator b) = []
  · right; rw [h]; rfl
  · have hpre := List.rdropWhile_prefix (fun b => !isPathSeparator b) p
    have hle : (p.rdropWhile (fun b => !isPathSeparator b)).length ≤ p.length := hpre.length_le
    rcases Clean_length_of_lastIsSep _ (rdropWhile_lastIsSep p h) with h1 | h1
    · left; omega
    · right; exact h1

theorem Dir_dot : Dir ['.'] = ['.'] := by decide

theorem Dir_root : Dir ['/'] = ['/'] := by decide

/-- On a path of at most one byte `Dir` gives `"."`, or the root for the root. -/
theorem Dir_short (p : GoString) (h : p.length ≤ 1) : Dir p = ['.'] ∨ Dir p = p := by
  cases p with
  | nil => left; rfl
  | cons c t =>
    cases t with
    | nil =>
      by_cases hc : c = '/'
      · right; rw [hc]; exact Dir_root
      · left
        have : isPathSeparator c = false := by simpa [isPathSeparator] using hc
        simp [Dir, List.rdropWhile, this]
        rfl
    | cons d t => simp at h

/-! ## The resolution loop -/

theorem candidate_Dir (p : GoString) (j : Nat) : candidate (Dir p) j = candidate p (j + 1) := by
  induction j with
  | zero => rfl
  | succ j ih => simp only [candidate, ih]

theorem candidate_add (p : GoString) (i j : Nat) :
    candidate (candidate p i) j = candidate p (i + j) := by
  induction j with
  | zero => rfl
  | succ j ih =>
    show Dir (candidate (candidate p i) j) = Dir (candidate p (i + j))
    rw [ih]

theorem candidate_dot (p : GoString) (i : Nat) (h : candidate p i = ['.']) :
    ∀ j, i ≤ j → candidate p j = ['.'] := by
  intro j hij
  induction j with
  | zero =>
    have : i = 0 := by omega
    rw [← this]; exact h
  | succ j ih =>
    rcases Nat.lt_or_ge i (j + 1) with hlt | hge
    · simp only [candidate, ih (by omega), Dir_dot]
    · have : i = j + 1 := by omega
      rw [← this]; exact h

/-- On an import path of two bytes or more every shortened candidate leaves room for the
slice `mod[len(path)+1:]`. -/
theorem candidate_length (mod : GoString) (h2 : 2 ≤ mod.length) (j : Nat) :
    (candidate mod (j + 1)).length + 1 ≤ mod.length := by
  induction j with
  | zero =>
    rcases Dir_length mod with h | h
    · simp only [candidate]; omega
    · simp only [candidate]; omega
  | succ j ih =>
    rcases Dir_length (candidate mod (j + 1)) with h | h
    · simp only [candidate] at h ih ⊢; omega
    · simp only [candidate] at h ih ⊢; omega

/-- On an import path of at most one byte the chain never leaves the path and `"."`. -/
theorem candidate_short (mod : GoString) (h : mod.length ≤ 1) (j : Nat) :
    candidate mod j = mod ∨ candidate mod j = ['.'] := by
  induction j with
  | zero => left; rfl
  | succ j ih =>
    rcases ih with h1 | h1
    · rcases Dir_short mod h with h2 | h2
      · right; simp only [candidate, h1, h2]
      · left; simp only [candidate, h1, h2]
    · right; simp only [candidate, h1, Dir_dot]

theorem map_candidate_range (p : GoString) (k : Nat) :
    p :: (List.range (k + 1)).map (candidate (Dir p)) =
      (List.range (k + 1 + 1)).map (candidate p) := by
  rw [List.range_succ_eq_map (k + 1), List.map_cons, List.map_map]
  congr 1
  apply List.map_congr_left
  intro j _
  exact candidate_Dir p j

/-- When the candidates before the `k`-th answer non-200 without tripping the slice,
and the `k`-th answers 200, the loop ends there, having probed exactly the first
`k + 1` candidates. -/
theorem makeZipLoop_found (s : service) (w : World) (mod ver : GoString) :
    ∀ (k fuel : Nat) (path subdir : GoString) (body : Result GoString), k < fuel →
      (∀ j, j < k → candidate path j ≠ ['.'] ∧ (s.probe w ver (candidate path j)).isNon200 = true ∧
        (candidate path (j + 1)).length + 1 ≤ mod.length) →
      candidate path k ≠ ['.'] →
      s.probe w ver (candidate path k) = .resp 200 body →
      makeZipLoop s w mod ver fuel path subdir =
        (.found (candidate path k)
            (if k = 0 then subdir else mod.drop ((candidate path k).length + 1)) body,
          (List.range (k + 1)).map (candidate path)) := by
  intro k
  induction k with
  | zero =>
    intro fuel path subdir body hf _ hne h200
    cases fuel with
    | zero => omega
    | succ fuel =>
      simp only [candidate, service.probe] at hne h200
      rw [makeZipLoop, if_neg hne, h200]
      simp [candidate, List.range_succ]
  | succ k ih =>
    intro fuel path subdir body hf hbefore hne h200
    cases fuel with
    | zero => omega
    | succ fuel =>
      obtain ⟨hp, hn, hlen⟩ := hbefore 0 (by omega)
      simp only [candidate] at hp hlen
      have hrec := ih fuel (Dir path) (mod.drop ((Dir path).length + 1)) body (by omega)
        (fun j hj => by
          have := hbefore (j + 1) (by omega)
          simpa only [candidate_Dir] using this)
        (by simpa only [candidate_Dir] using hne)
        (by simpa only [candidate_Dir] using h200)
      rw [makeZipLoop, if_neg hp]
      simp only [candidate, service.probe] at hn
      cases hfetch : s.fetch w path ver ".zip".toList with
      | fail e => rw [hfetch] at hn; simp [FetchResult.isNon200] at hn
      | resp code b =>
        rw [hfetch] at hn
        have hcode : ¬ code = 200 := by simpa [FetchResult.isNon200] using hn
        simp only [if_neg hcode, if_neg (show ¬ (Dir path).length + 1 > mod.length by omega)]
        rw [hrec, ← map_candidate_range, candidate_Dir]
        simp only [Nat.succ_ne_zero, if_false]
        by_cases hk : k = 0
        · subst hk; simp [candidate]
        · simp [hk]

theorem not_is200_of_isNon200 (r : FetchResult) (h : r.isNon200 = true) : r.is200 = false := by
  cases r with
  | fail e => rfl
  | resp code body => simpa [FetchResult.isNon200, FetchResult.is200] using h

theorem resp_of_is200 (r : FetchResult) (h : r.is200 = true) : ∃ body, r = .resp 200 body := by
  cases r with
  | fail e => simp [FetchResult.is200] at h
  | resp code body =>
    have : code = 200 := by simpa [FetchResult.is200] using h
    exact ⟨body, by rw [this]⟩

/-- Before a winning candidate that is not `"."`, no candidate is `"."` and no slice
`mod[len(path)+1:]` is out of range. -/
theorem chain_in_range (s : service) (w : World) (mod ver : GoString) (k : Nat)
    (hbefore : ∀ j, j < k → (s.probe w ver (candidate mod j)).isNon200 = true)
    (hne : candidate mod k ≠ ['.'])
    (h200 : (s.probe w ver (candidate mod k)).is200 = true) :
    ∀ j, j < k → candidate mod j ≠ ['.'] ∧ (candidate mod (j + 1)).length + 1 ≤ mod.length := by
  intro j hj
  refine ⟨fun h => hne (candidate_dot mod j h k (by omega)), ?_⟩
  by_cases h2 : 2 ≤ mod.length
  · exact candidate_length mod h2 j
  · exfalso
    rcases candidate_short mod (by omega) k with h | h
    · have h0 := not_is200_of_isNon200 _ (hbefore 0 (by omega))
      rw [h] at h200
      simp only [candidate] at h0
      rw [h0] at h200
      exact Bool.false_ne_true h200
    · exact hne h

theorem candidate_shift (mod : GoString) (i j : Nat) (h : candidate mod i = candidate mod j)
    (t : Nat) : candidate mod (i + t) = candidate mod (j + t) := by
  rw [← candidate_add, ← candidate_add, h]

theorem isNon200_of_not (r : FetchResult) (h1 : r.isFail = false) (h2 : ¬ r.is200 = true) :
    r.isNon200 = true := by
  cases r with
  | fail e => simp [FetchResult.isFail] at h1
  | resp code body => simpa [FetchResult.isNon200, FetchResult.is200] using h2

/-- The candidates up to a first 200 answer are pairwise different. -/
theorem candidate_nodup (s : service) (w : World) (mod ver : GoString) (k : Nat)
    (hbefore : ∀ j, j < k → (s.probe w ver (candidate mod j)).isNon200 = true)
    (h200 : (s.probe w ver (candidate mod k)).is200 = true) :
    ((List.range (k + 1)).map (candidate mod)).Nodup := by
  have key : ∀ i j, i < j → j ≤ k → candidate mod i ≠ candidate mod j := by
    intro i j hij hjk heq
    have hs := candidate_shift mod i j heq (k - j)
    have hk : j + (k - j) = k := by omega
    rw [hk] at hs
    have h0 := not_is200_of_isNon200 _ (hbefore (i + (k - j)) (by omega))
    rw [hs, h200] at h0
    exact Bool.noConfusion h0
  apply List.Nodup.map_on _ (List.nodup_range _)
  intro x hx y hy hxy
  rw [List.mem_range] at hx hy
  rcases Nat.lt_trichotomy x y with h | h | h
  · exact absurd hxy (key x y h (by omega))
  · exact h
  · exact absurd hxy.symm (key y x h (by omega))

/-- C1 (amended): for every import path, version and proxy that answers every probe
with a status (200 or not), if some candidate of the chain `P, Dir(P), ...` other than
the terminator `"."` answers 200, then the loop of `makeZip` stops at the first such
candidate: it probes exactly the candidates from the full path down to the winning one,
in that order and each once, every candidate before the winning one answered non-200,
and nothing shorter is probed. -/
theorem makeZip_stops_at_first_200 (s : service) (w : World) (mod ver : GoString)
    (hproxy : ∀ p, (s.probe w ver p).isFail = false)
    (h200 : ∃ j, candidate mod j ≠ ['.'] ∧ (s.probe w ver (candidate mod j)).is200 = true) :
    ∃ k body,
      s.probe w ver (candidate mod k) = .resp 200 body ∧
      candidate mod k ≠ ['.'] ∧
      (∀ j, j < k → (s.probe w ver (candidate mod j)).isNon200 = true) ∧
      ((List.range (k + 1)).map (candidate mod)).Nodup ∧
      ∀ fuel, k < fuel → ∃ subdir,
        makeZipLoop s w mod ver fuel mod [] =
          (.found (candidate mod k) subdir body, (List.range (k + 1)).map (candidate mod)) := by
  obtain ⟨j0, hj0ne, hj0⟩ := h200
  have hex : ∃ j, (s.probe w ver (candidate mod j)).is200 = true := ⟨j0, hj0⟩
  have hk : (s.probe w ver (candidate mod (Nat.find hex))).is200 = true := Nat.find_spec hex
  have hkne : candidate mod (Nat.find hex) ≠ ['.'] := fun h =>
    hj0ne (candidate_dot mod _ h j0 (Nat.find_min' hex hj0))
  obtain ⟨body, hbody⟩ := resp_of_is200 _ hk
  have hbefore : ∀ j, j < Nat.find hex → (s.probe w ver (candidate mod j)).isNon200 = true :=
    fun j hj => isNon200_of_not _ (hproxy _) (Nat.find_min hex hj)
  have hrange := chain_in_range s w mod ver _ hbefore hkne hk
  exact ⟨Nat.find hex, body, hbody, hkne, hbefore, candidate_nodup s w mod ver _ hbefore hk,
    fun fuel hf => ⟨_, makeZipLoop_found s w mod ver _ fuel mod [] body hf
      (fun j hj => ⟨(hrange j hj).1, hbefore j hj, (hrange j hj).2⟩) hkne hbody⟩⟩

/-! ## The module root and the sub-package -/

theorem drop_module_sep (m sfx : GoString) (c : Char) :
    (m ++ c :: sfx).drop (m.length + 1) = sfx := by
  induction m with
  | nil => rfl
  | cons d t ih => simp

theorem TrimSuffix_sep (m : GoString) : TrimSuffix (m ++ ['/']) ['/'] = m := by
  unfold TrimSuffix
  have : List.isSuffixOf ['/'] (m ++ ['/']) = true := by
    simp [List.isSuffixOf]
  rw [if_pos this]
  simp

/-- When `mod` is `m`, a separator and a non-empty suffix, lines 40-44 of `GetDoc` give
back `m` from the suffix. -/
theorem moduleRoot_of_suffix (m sfx : GoString) (h : sfx ≠ []) :
    moduleRoot (m ++ '/' :: sfx) sfx = m := by
  unfold moduleRoot
  rw [if_pos h]
  have hlen : (m ++ '/' :: sfx).length - sfx.length = (m ++ ['/']).length := by
    simp only [List.length_append, List.length_cons, List.length_nil]
    omega
  have happ : m ++ '/' :: sfx = (m ++ ['/']) ++ sfx := by simp
  rw [hlen, happ, List.take_left, TrimSuffix_sep]

/-- One iteration of the loop of `makeZip`. -/
theorem makeZipLoop_succ (s : service) (w : World) (mod ver : GoString) (fuel : Nat)
    (path subdir : GoString) :
    makeZipLoop s w mod ver (fuel + 1) path subdir =
      if path = ['.'] then (.invalidPath, [])
      else
        match s.probe w ver path with
        | .fail e => (.fetchErr e, [path])
        | .resp code body =>
          if code = 200 then (.found path subdir body, [path])
          else if (Dir path).length + 1 > mod.length then (.panic, [path])
          else
            ((makeZipLoop s w mod ver fuel (Dir path) (mod.drop ((Dir path).length + 1))).1,
              path :: (makeZipLoop s w mod ver fuel (Dir path)
                (mod.drop ((Dir path).length + 1))).2) := rfl

/-- Once the loop of `makeZip` has ended within a budget, a larger budget gives the same
result and the same probes. -/
theorem makeZipLoop_fuel (s : service) (w : World) (mod ver : GoString) :
    ∀ (fuel : Nat) (path subdir : GoString),
      (makeZipLoop s w mod ver fuel path subdir).1 ≠ .outOfFuel →
      makeZipLoop s w mod ver (fuel + 1) path subdir =
        makeZipLoop s w mod ver fuel path subdir := by
  intro fuel
  induction fuel with
  | zero => intro path subdir h; exact absurd rfl h
  | succ fuel ih =>
    intro path subdir h
    rw [makeZipLoop_succ] at h
    rw [makeZipLoop_succ s w mod ver (fuel + 1) path subdir,
      makeZipLoop_succ s w mod ver fuel path subdir]
    by_cases hp : path = ['.']
    · rw [if_pos hp, if_pos hp]
    · rw [if_neg hp] at h
      rw [if_neg hp, if_neg hp]
      cases hf : s.probe w ver path with
      | fail e => rfl
      | resp code b =>
        rw [hf] at h
        simp only at h ⊢
        by_cases hc : code = 200
        · rw [if_pos hc, if_pos hc]
        · rw [if_neg hc] at h
          rw [if_neg hc, if_neg hc]
          by_cases hl : (Dir path).length + 1 > mod.length
          · rw [if_pos hl, if_pos hl]
          · rw [if_neg hl] at h
            rw [if_neg hl, if_neg hl, ih _ _ h]

/-- The `subdir` a successful loop returns is the one it started with or a slice of
`mod`; in both cases it is no longer than `mod`. -/
theorem makeZipLoop_subdir_length (s : service) (w : World) (mod ver : GoString) :
    ∀ (fuel : Nat) (path subdir m sd : GoString) (body : Result GoString),
      subdir.length ≤ mod.length →
      (makeZipLoop s w mod ver fuel path subdir).1 = .found m sd body →
      sd.length ≤ mod.length := by
  intro fuel
  induction fuel with
  | zero => intro path subdir m sd body _ h; simp [makeZipLoop] at h
  | succ fuel ih =>
    intro path subdir m sd body hsub h
    rw [makeZipLoop_succ] at h
    by_cases hp : path = ['.']
    · rw [if_pos hp] at h; simp at h
    · rw [if_neg hp] at h
      cases hf : s.probe w ver path with
      | fail e => rw [hf] at h; simp at h
      | resp code b =>
        rw [hf] at h
        simp only at h
        by_cases hc : code = 200
        · rw [if_pos hc] at h
          simp only [LoopResult.found.injEq] at h
          rw [← h.2.1]; exact hsub
        · rw [if_neg hc] at h
          by_cases hl : (Dir path).length + 1 > mod.length
          · rw [if_pos hl] at h; simp at h
          · rw [if_neg hl] at h
            exact ih _ _ m sd body (by simp) h

/-! ## The shape of a `makeZip` and `GetDoc` run -/

/-- When `makeZip` returns a nil error, the loop found a winner, and the run is:
create the scratch directory, probe, create the file, copy the body. -/
theorem makeZip_ok (s : service) (w : World) (fuel : Nat) (fs : FS) (mod ver : GoString)
    (r : MakeZipRet) (hmz : (s.makeZip w fuel fs mod ver).out = .ret r) (herr : r.err = none) :
    ∃ m body,
      (makeZipLoop s w mod ver fuel mod []).1 = .found m r.subdir body ∧
      (s.makeZip w fuel fs mod ver).fs = r.dir :: fs ∧
      (s.makeZip w fuel fs mod ver).trace =
        .tempDir r.dir :: (makeZipLoop s w mod ver fuel mod []).2.map Event.probe ++
          [.createFile r.file, .copyBody] := by
  unfold service.makeZip at hmz ⊢
  cases htd : w.TempDir (Replace mod '/' '_' ++ ver) with
  | err e =>
    rw [htd] at hmz
    simp only [Outcome.ret.injEq] at hmz
    rw [← hmz] at herr; simp at herr
  | ok dir =>
    rw [htd] at hmz
    simp only at hmz ⊢
    cases hl : (makeZipLoop s w mod ver fuel mod []).1 with
    | outOfFuel => rw [hl] at hmz; simp at hmz
    | panic => rw [hl] at hmz; simp at hmz
    | invalidPath =>
      rw [hl] at hmz
      simp only [Outcome.ret.injEq] at hmz
      rw [← hmz] at herr; simp at herr
    | fetchErr e =>
      rw [hl] at hmz
      simp only [Outcome.ret.injEq] at hmz
      rw [← hmz] at herr; simp at herr
    | found m sd body =>
      rw [hl] at hmz
      simp only at hmz ⊢
      cases hc : w.Create (Join dir "source.zip".toList) with
      | some e =>
        rw [hc] at hmz
        simp only [Outcome.ret.injEq] at hmz
        rw [← hmz] at herr; simp at herr
      | none =>
        rw [hc] at hmz
        simp only [Outcome.ret.injEq] at hmz
        subst hmz
        exact ⟨m, body, rfl, rfl, by simp⟩

/-- After a `makeZip` without error `GetDoc` starts the Version Lister on the derived
module root, runs the rest under the deferred `os.RemoveAll(dir)`, and returns. -/
theorem GetDoc_ok (s : service) (w : World) (fuel : Nat) (fs : FS) (mod ver : GoString)
    (r : MakeZipRet) (hmz : (s.makeZip w fuel fs mod ver).out = .ret r) (herr : r.err = none) :
    s.GetDoc w fuel fs mod ver =
      ⟨.ret (getDocBody w mod ver r.subdir (moduleRoot mod r.subdir) r.file
          (savedBytes s w fuel mod ver) (s.getVersions w (moduleRoot mod r.subdir))).1,
        RemoveAll (s.makeZip w fuel fs mod ver).fs r.dir,
        (s.makeZip w fuel fs mod ver).trace ++ [.startVersions (moduleRoot mod r.subdir)] ++
          (getDocBody w mod ver r.subdir (moduleRoot mod r.subdir) r.file
            (savedBytes s w fuel mod ver) (s.getVersions w (moduleRoot mod r.subdir))).2 ++
          [.removeAll r.dir]⟩ := by
  obtain ⟨m, body, hloop, _, _⟩ := makeZip_ok s w fuel fs mod ver r hmz herr
  have hlen : ¬ r.subdir.length > mod.length := by
    have := makeZipLoop_subdir_length s w mod ver fuel mod [] m r.subdir body (by simp) hloop
    omega
  unfold service.GetDoc
  simp only [hmz, herr, if_neg hlen]

/-- When `makeZip` returns an error `GetDoc` wraps it and returns at once. -/
theorem GetDoc_err (s : service) (w : World) (fuel : Nat) (fs : FS) (mod ver : GoString)
    (r : MakeZipRet) (e : Err) (hmz : (s.makeZip w fuel fs mod ver).out = .ret r)
    (herr : r.err = some e) :
    s.GetDoc w fuel fs mod ver =
      ⟨.ret ⟨none, some ("could not make zip: ".toList ++ e)⟩,
        (s.makeZip w fuel fs mod ver).fs, (s.makeZip w fuel fs mod ver).trace⟩ := by
  unfold service.GetDoc
  simp only [hmz, herr]

theorem readEntries_events (entries : List ZipEntry) :
    ∀ (files : List file) (e : Event), e ∈ (readEntries entries files).2 →
      e.isRetrieval = false ∧ e.isStart = false := by
  induction entries with
  | nil => intro files e h; simp [readEntries] at h
  | cons f rest ih =>
    intro files e h
    rw [readEntries] at h
    cases ho : f.openErr with
    | some err =>
      rw [ho] at h; simp only [List.mem_singleton] at h
      rw [h]; exact ⟨rfl, rfl⟩
    | none =>
      rw [ho] at h
      cases hr : f.readAll with
      | err err =>
        rw [hr] at h; simp only [List.mem_singleton] at h
        rw [h]; exact ⟨rfl, rfl⟩
      | ok bts =>
        rw [hr] at h
        simp only [List.mem_cons] at h
        rcases h with h | h
        · rw [h]; exact ⟨rfl, rfl⟩
        · exact ih _ e h

/-- What runs after the Version Lister was started: first the archive is opened, and
nothing of it is a probe, a download or a second start. -/
theorem getDocBody_events (w : World) (mod ver subpkg modRoot fileName saved : GoString)
    (sent : List (List GoString)) :
    (∃ rest, (getDocBody w mod ver subpkg modRoot fileName saved sent).2 =
        .openArchive fileName :: rest) ∧
    ∀ e, e ∈ (getDocBody w mod ver subpkg modRoot fileName saved sent).2 →
      e.isRetrieval = false ∧ e.isStart = false := by
  unfold getDocBody
  cases w.Open fileName with
  | some e => exact ⟨⟨[], rfl⟩, fun e h => by simp at h; rw [h]; exact ⟨rfl, rfl⟩⟩
  | none =>
    cases w.Stat fileName with
    | some e => exact ⟨⟨[], rfl⟩, fun e h => by simp at h; rw [h]; exact ⟨rfl, rfl⟩⟩
    | none =>
      cases w.NewReader saved with
      | err e => exact ⟨⟨[], rfl⟩, fun e h => by simp at h; rw [h]; exact ⟨rfl, rfl⟩⟩
      | ok entries =>
        simp only
        have hre := readEntries_events entries []
        cases (readEntries entries []).1 with
        | err e =>
          refine ⟨⟨_, rfl⟩, fun e h => ?_⟩
          simp only [List.mem_cons] at h
          rcases h with h | h
          · rw [h]; exact ⟨rfl, rfl⟩
          · exact hre e h
        | ok files =>
          simp only
          cases w.getGoDoc mod ver subpkg files with
          | err e =>
            refine ⟨⟨_, rfl⟩, fun e h => ?_⟩
            simp only [List.cons_append, List.mem_cons, List.mem_append, List.mem_singleton,
              List.not_mem_nil, or_false] at h
            rcases h with h | h | h
            · rw [h]; exact ⟨rfl, rfl⟩
            · exact hre e h
            · rw [h]; exact ⟨rfl, rfl⟩
          | ok pd =>
            refine ⟨⟨_, rfl⟩, fun e h => ?_⟩
            simp only [List.cons_append, List.mem_cons, List.mem_append, List.mem_singleton,
              List.not_mem_nil, or_false] at h
            rcases h with h | h | h | h | h
            · rw [h]; exact ⟨rfl, rfl⟩
            · exact hre e h
            · rw [h]; exact ⟨rfl, rfl⟩
            · rw [h]; exact ⟨rfl, rfl⟩
            · rw [h]; exact ⟨rfl, rfl⟩

/-- C8 (amended): in every `GetDoc` run in which `makeZip` returns without error, the
Version Lister is started once, after `makeZip` has returned: every probe and the
streaming of the archive body into the scratch file come before the start, and the
opening of the archive follows it directly, then extraction and the rest. -/
theorem versions_start_after_download (s : service) (w : World) (fuel : Nat) (fs : FS)
    (mod ver : GoString) (r : MakeZipRet)
    (hmz : (s.makeZip w fuel fs mod ver).out = .ret r) (herr : r.err = none) :
    ∃ pre post,
      (s.GetDoc w fuel fs mod ver).trace =
        pre ++ .startVersions (moduleRoot mod r.subdir) :: .openArchive r.file :: post ∧
      pre = (s.makeZip w fuel fs mod ver).trace ∧
      Event.copyBody ∈ pre ∧
      (∀ e, e ∈ pre → e.isRetrieval = true) ∧
      (∀ e, e ∈ post → e.isRetrieval = false ∧ e.isStart = false) := by
  obtain ⟨m, body, _, _, htr⟩ := makeZip_ok s w fuel fs mod ver r hmz herr
  obtain ⟨⟨rest, hrest⟩, hev⟩ := getDocBody_events w mod ver r.subdir (moduleRoot mod r.subdir)
    r.file (savedBytes s w fuel mod ver) (s.getVersions w (moduleRoot mod r.subdir))
  refine ⟨(s.makeZip w fuel fs mod ver).trace, rest ++ [.removeAll r.dir], ?_, rfl, ?_, ?_, ?_⟩
  · rw [GetDoc_ok s w fuel fs mod ver r hmz herr]
    simp only [hrest]
    simp
  · rw [htr]; simp
  · intro e he
    rw [htr] at he
    simp only [List.cons_append, List.mem_cons, List.mem_append, List.mem_map,
      List.mem_singleton, List.not_mem_nil, or_false] at he
    rcases he with h | ⟨p, _, h⟩ | h | h
    · rw [h]; rfl
    · rw [← h]; rfl
    · rw [h]; rfl
    · rw [h]; rfl
  · intro e he
    simp only [List.mem_append, List.mem_singleton] at he
    rcases he with h | h
    · exact hev e (by rw [hrest]; exact List.mem_cons_of_mem _ h)
    · rw [h]; exact ⟨rfl, rfl⟩

/-- A page returned by the body of `GetDoc` carries the decoded module root and what was
received from the version channel. -/
theorem getDocBody_doc (w : World) (mod ver subpkg modRoot fileName saved : GoString)
    (sent : List (List GoString)) (doc : Documentation) (e : Option Err)
    (h : (getDocBody w mod ver subpkg modRoot fileName saved sent).1 = ⟨some doc, e⟩) :
    doc.ModuleRoot = w.DecodePath modRoot ∧ doc.Versions = recv sent := by
  unfold getDocBody at h
  cases ho : w.Open fileName with
  | some e1 => rw [ho] at h; simp at h
  | none =>
    rw [ho] at h
    cases hs : w.Stat fileName with
    | some e1 => rw [hs] at h; simp at h
    | none =>
      rw [hs] at h
      cases hz : w.NewReader saved with
      | err e1 => rw [hz] at h; simp at h
      | ok entries =>
        rw [hz] at h
        simp only at h
        cases hr : (readEntries entries []).1 with
        | err e1 => rw [hr] at h; simp at h
        | ok files =>
          rw [hr] at h
          simp only at h
          cases hb : w.getGoDoc mod ver subpkg files with
          | err e1 => rw [hb] at h; simp at h
          | ok pd =>
            rw [hb] at h
            simp only [GetDocRet.mk.injEq, Option.some.injEq] at h
            rw [← h.1]
            exact ⟨rfl, rfl⟩

/-- Where the module root is the winner: for all import paths and versions whose winning
probe `M` (the first candidate answering 200, not the terminator `"."`) is the import
path itself, or is
followed in the import path by a separator and a non-empty suffix: the loop of
`makeZip` returns that suffix as sub-package (the empty one when `M` is the import
path), lines 40-44 of `GetDoc` derive `M` from it as module root, and a `GetDoc` run
whose `makeZip` returns without error starts the Version Lister on `M` and puts the
decoded `M` in the page it returns. -/
theorem subpackage_of_winning_probe (s : service) (w : World) (mod ver : GoString) (k : Nat)
    (body : Result GoString) (sfx : GoString)
    (hbefore : ∀ j, j < k → (s.probe w ver (candidate mod j)).isNon200 = true)
    (hne : candidate mod k ≠ ['.'])
    (h200 : s.probe w ver (candidate mod k) = .resp 200 body)
    (hshape : (candidate mod k = mod ∧ sfx = []) ∨
      (sfx ≠ [] ∧ mod = candidate mod k ++ '/' :: sfx)) :
    moduleRoot mod sfx = candidate mod k ∧
    ∀ fuel, k < fuel →
      makeZipLoop s w mod ver fuel mod [] =
        (.found (candidate mod k) sfx body, (List.range (k + 1)).map (candidate mod)) ∧
      ∀ fs r, (s.makeZip w fuel fs mod ver).out = .ret r → r.err = none →
        r.subdir = sfx ∧
        Event.startVersions (candidate mod k) ∈ (s.GetDoc w fuel fs mod ver).trace ∧
        ∀ doc, (s.GetDoc w fuel fs mod ver).out = .ret ⟨some doc, none⟩ →
          doc.ModuleRoot = w.DecodePath (candidate mod k) := by
  have hk200 : (s.probe w ver (candidate mod k)).is200 = true := by
    rw [h200]; rfl
  have hrange := chain_in_range s w mod ver k hbefore hne hk200
  have hrun := fun fuel hf => makeZipLoop_found s w mod ver k fuel mod [] body hf
    (fun j hj => ⟨(hrange j hj).1, hbefore j hj, (hrange j hj).2⟩) hne h200
  have hsub : (if k = 0 then [] else mod.drop ((candidate mod k).length + 1)) = sfx := by
    rcases hshape with ⟨hM, hs⟩ | ⟨hs, hM⟩
    · have hk : k = 0 := by
        rcases Nat.eq_zero_or_pos k with h | h
        · exact h
        · have h0 := not_is200_of_isNon200 _ (hbefore 0 h)
          simp only [candidate] at h0
          rw [hM, h0] at hk200
          exact Bool.noConfusion hk200
      rw [if_pos hk, hs]
    · have hk : k ≠ 0 := by
        intro h
        rw [h] at hM
        simp only [candidate] at hM
        have := congrArg List.length hM
        simp at this
      have hdrop := drop_module_sep (candidate mod k) sfx '/'
      rw [← hM] at hdrop
      rw [if_neg hk, hdrop]
  have hroot : moduleRoot mod sfx = candidate mod k := by
    rcases hshape with ⟨hM, hs⟩ | ⟨hs, hM⟩
    · rw [hM, hs]; simp [moduleRoot]
    · conv_lhs => rw [hM]
      exact moduleRoot_of_suffix _ _ hs
  refine ⟨hroot, fun fuel hf => ?_⟩
  have hloop : makeZipLoop s w mod ver fuel mod [] =
      (.found (candidate mod k) sfx body, (List.range (k + 1)).map (candidate mod)) := by
    rw [hrun fuel hf, hsub]
  refine ⟨hloop, fun fs r hmz herr => ?_⟩
  obtain ⟨m, body1, hfound, _, _⟩ := makeZip_ok s w fuel fs mod ver r hmz herr
  have hsd : r.subdir = sfx := by
    rw [hloop] at hfound
    simp only [LoopResult.found.injEq] at hfound
    exact hfound.2.1.symm
  have hgd := GetDoc_ok s w fuel fs mod ver r hmz herr
  rw [hsd, hroot] at hgd
  refine ⟨hsd, ?_, fun doc hdoc => ?_⟩
  · rw [hgd]; simp
  · rw [hgd] at hdoc
    simp only [Outcome.ret.injEq] at hdoc
    exact (getDocBody_doc _ _ _ _ _ _ _ _ doc none hdoc).1

/-! ## The version list -/

theorem Split_ne_nil (sep : Char) (b : GoString) : Split sep b ≠ [] := by
  cases b with
  | nil => simp [Split]
  | cons c t =>
    rw [Split]
    split_ifs
    · simp
    · split <;> simp

theorem Split_line (l rest : GoString) (h : '\n' ∉ l) :
    Split '\n' (l ++ '\n' :: rest) = l :: Split '\n' rest := by
  induction l with
  | nil => simp [Split]
  | cons c t ih =>
    have hc : ¬ (c == '\n') = true := by
      intro hc
      exact h (by simp [beq_iff_eq.mp hc])
    have ht : '\n' ∉ t := fun hm => h (List.mem_cons_of_mem _ hm)
    rw [List.cons_append, Split, if_neg hc, ih ht]

/-- A body made of newline-terminated lines splits into those lines and one empty
piece after the last newline. -/
theorem Split_lines (lines : List GoString) (h : ∀ l, l ∈ lines → '\n' ∉ l) :
    Split '\n' (lines.map (fun l => l ++ ['\n'])).flatten = lines ++ [[]] := by
  induction lines with
  | nil => rfl
  | cons l rest ih =>
    have := Split_line l (rest.map (fun l => l ++ ['\n'])).flatten (h l (List.mem_cons_self _ _))
    have hcat : ((l :: rest).map (fun l => l ++ ['\n'])).flatten =
        l ++ '\n' :: (rest.map (fun l => l ++ ['\n'])).flatten := by
      simp
    rw [hcat, this, ih (fun x hx => h x (List.mem_cons_of_mem _ hx))]
    rfl

/-- C5 (amended): for every 200 response body `B` of the version-list request,
`getVersions` delivers the pieces of `B` between newlines, in proxy order, without the
last piece; when `B` is made of newline-terminated lines (the empty body included) that
is every line of `B`, only the empty piece after the terminal newline being removed. -/
theorem getVersions_delivers_lines (s : service) (w : World) (mod B : GoString)
    (hresp : s.fetch w mod "list".toList [] = .resp 200 (.ok B)) :
    s.getVersions w mod = [(Split '\n' B).dropLast] ∧
    ∀ lines : List GoString, (∀ l, l ∈ lines → '\n' ∉ l) →
      B = (lines.map (fun l => l ++ ['\n'])).flatten → s.getVersions w mod = [lines] := by
  have hgen : s.getVersions w mod = [(Split '\n' B).dropLast] := by
    unfold service.getVersions
    rw [hresp]
    have hpos : (Split '\n' B).length > 0 := List.length_pos.mpr (Split_ne_nil _ _)
    simp only [bne_self_eq_false, Bool.false_eq_true, if_false, if_pos hpos,
      List.dropLast_eq_take]
  refine ⟨hgen, fun lines hl hB => ?_⟩
  rw [hgen, hB, Split_lines lines hl]
  simp

theorem getVersions_length (s : service) (w : World) (m : GoString) :
    (s.getVersions w m).length ≤ 1 := by
  unfold service.getVersions
  cases s.fetch w m "list".toList [] with
  | fail e => simp
  | resp code body =>
    simp only
    split_ifs
    · simp
    · cases body with
      | err e => simp
      | ok bts => simp

/-- C6: in every `GetDoc` run in which resolution, archive extraction and the
documentation builder succeed, if the version-list request fails (transport error,
non-200 status, or body read error) the channel is closed without a send (and never
carries more than one value), and `GetDoc` still returns a Documentation with a nil
error whose `Versions` is empty. -/
theorem GetDoc_survives_version_failure (s : service) (w : World) (fuel : Nat) (fs : FS)
    (mod ver : GoString) (r : MakeZipRet) (entries : List ZipEntry) (files : List file)
    (pd : Documentation)
    (hmz : (s.makeZip w fuel fs mod ver).out = .ret r) (herr : r.err = none)
    (hopen : w.Open r.file = none) (hstat : w.Stat r.file = none)
    (hzip : w.NewReader (savedBytes s w fuel mod ver) = .ok entries)
    (hread : (readEntries entries []).1 = .ok files)
    (hbuild : w.getGoDoc mod ver r.subdir files = .ok pd)
    (hlist : (∃ e, s.fetch w (moduleRoot mod r.subdir) "list".toList [] = .fail e) ∨
      (∃ code body, s.fetch w (moduleRoot mod r.subdir) "list".toList [] = .resp code body ∧
        code ≠ 200) ∨
      (∃ e, s.fetch w (moduleRoot mod r.subdir) "list".toList [] = .resp 200 (.err e))) :
    s.getVersions w (moduleRoot mod r.subdir) = [] ∧
    (∀ m, (s.getVersions w m).length ≤ 1) ∧
    ∃ doc, (s.GetDoc w fuel fs mod ver).out = .ret ⟨some doc, none⟩ ∧ doc.Versions = [] := by
  have hsent : s.getVersions w (moduleRoot mod r.subdir) = [] := by
    unfold service.getVersions
    rcases hlist with ⟨e, h⟩ | ⟨code, body, h, hc⟩ | ⟨e, h⟩
    · rw [h]
    · rw [h]
      have : (code != 200) = true := by simpa using hc
      simp only [this, if_true]
    · rw [h]; rfl
  refine ⟨hsent, getVersions_length s w, ?_⟩
  rw [GetDoc_ok s w fuel fs mod ver r hmz herr]
  simp only [getDocBody, hopen, hstat, hzip, hread, hbuild, hsent]
  exact ⟨_, rfl, rfl⟩

/-! ## Transport errors -/

/-- A probe that fails with a transport error is the last one of the loop, the loop
returns that error, and every probe before it answered non-200. -/
theorem makeZipLoop_fail (s : service) (w : World) (mod ver p : GoString) (e : Err)
    (hfail : s.probe w ver p = .fail e) :
    ∀ (fuel : Nat) (path subdir : GoString), p ∈ (makeZipLoop s w mod ver fuel path subdir).2 →
      (makeZipLoop s w mod ver fuel path subdir).1 = .fetchErr e ∧
      ∃ pre, (makeZipLoop s w mod ver fuel path subdir).2 = pre ++ [p] ∧
        ∀ q, q ∈ pre → (s.probe w ver q).isNon200 = true := by
  intro fuel
  induction fuel with
  | zero => intro path subdir h; simp [makeZipLoop] at h
  | succ fuel ih =>
    intro path subdir h
    rw [makeZipLoop_succ] at h ⊢
    by_cases hp : path = ['.']
    · rw [if_pos hp] at h; simp at h
    · rw [if_neg hp] at h ⊢
      cases hf : s.probe w ver path with
      | fail e1 =>
        rw [hf] at h
        simp only [List.mem_singleton] at h
        rw [h, hf] at hfail
        simp only [FetchResult.fail.injEq] at hfail
        rw [hfail, h]
        exact ⟨rfl, [], rfl, fun q hq => by simp at hq⟩
      | resp code b =>
        rw [hf] at h
        simp only at h ⊢
        have hne : p ≠ path := by
          intro hpp
          rw [hpp, hf] at hfail
          exact FetchResult.noConfusion hfail
        by_cases hc : code = 200
        · rw [if_pos hc] at h
          simp only [List.mem_singleton] at h
          exact absurd h hne
        · rw [if_neg hc] at h ⊢
          by_cases hl : (Dir path).length + 1 > mod.length
          · rw [if_pos hl] at h
            simp only [List.mem_singleton] at h
            exact absurd h hne
          · rw [if_neg hl] at h ⊢
            simp only [List.mem_cons] at h
            rcases h with h | h
            · exact absurd h hne
            · obtain ⟨h1, pre, h2, h3⟩ := ih _ _ h
              refine ⟨h1, path :: pre, by rw [h2]; rfl, fun q hq => ?_⟩
              simp only [List.mem_cons] at hq
              rcases hq with hq | hq
              · rw [hq, hf]
                simpa [FetchResult.isNon200] using hc
              · exact h3 q hq

/-- A probe among the events of `makeZip` is a probe of its loop, which runs only after
the scratch directory was created. -/
theorem makeZip_probe_mem (s : service) (w : World) (fuel : Nat) (fs : FS) (mod ver : GoString)
    (p : GoString) (h : Event.probe p ∈ (s.makeZip w fuel fs mod ver).trace) :
    ∃ dir, w.TempDir (Replace mod '/' '_' ++ ver) = .ok dir ∧
      p ∈ (makeZipLoop s w mod ver fuel mod []).2 := by
  unfold service.makeZip at h
  cases htd : w.TempDir (Replace mod '/' '_' ++ ver) with
  | err e => rw [htd] at h; simp at h
  | ok dir =>
    refine ⟨dir, rfl, ?_⟩
    rw [htd] at h
    simp only at h
    cases hl : (makeZipLoop s w mod ver fuel mod []).1 with
    | outOfFuel => rw [hl] at h; simpa using h
    | panic => rw [hl] at h; simpa using h
    | invalidPath => rw [hl] at h; simpa using h
    | fetchErr e => rw [hl] at h; simpa using h
    | found m sd body =>
      rw [hl] at h
      simp only at h
      cases hc : w.Create (Join dir "source.zip".toList) with
      | some e => rw [hc] at h; simpa using h
      | none => rw [hc] at h; simpa using h

/-- When the loop ends on a transport error, `makeZip` returns it with empty names and
does nothing more. -/
theorem makeZip_fetchErr (s : service) (w : World) (fuel : Nat) (fs : FS) (mod ver : GoString)
    (dir : GoString) (e : Err) (htd : w.TempDir (Replace mod '/' '_' ++ ver) = .ok dir)
    (hl : (makeZipLoop s w mod ver fuel mod []).1 = .fetchErr e) :
    s.makeZip w fuel fs mod ver =
      ⟨.ret ⟨[], [], [], some e⟩, dir :: fs,
        .tempDir dir :: (makeZipLoop s w mod ver fuel mod []).2.map Event.probe⟩ := by
  unfold service.makeZip
  rw [htd]
  simp only [hl]

/-- C7: if a zip probe of `makeZip` returns a transport error, then every probe before
it answered non-200, `makeZip` returns that error at once with empty names, nothing is
probed or done afterwards, and `GetDoc` fails with a nil Documentation and the wrapped
error. -/
theorem transport_error_is_terminal (s : service) (w : World) (fuel : Nat) (fs : FS)
    (mod ver p : GoString) (e : Err)
    (hprobed : Event.probe p ∈ (s.makeZip w fuel fs mod ver).trace)
    (hfail : s.probe w ver p = .fail e) :
    (s.makeZip w fuel fs mod ver).out = .ret ⟨[], [], [], some e⟩ ∧
    (∃ pre, (s.makeZip w fuel fs mod ver).trace = pre ++ [.probe p] ∧
      ∀ q, Event.probe q ∈ pre → (s.probe w ver q).isNon200 = true) ∧
    (s.GetDoc w fuel fs mod ver).out = .ret ⟨none, some ("could not make zip: ".toList ++ e)⟩ ∧
    (s.GetDoc w fuel fs mod ver).trace = (s.makeZip w fuel fs mod ver).trace := by
  obtain ⟨dir, htd, hmem⟩ := makeZip_probe_mem s w fuel fs mod ver p hprobed
  obtain ⟨hres, pre, hpre, hnon⟩ := makeZipLoop_fail s w mod ver p e hfail fuel mod [] hmem
  have hmz := makeZip_fetchErr s w fuel fs mod ver dir e htd hres
  have hout : (s.makeZip w fuel fs mod ver).out = .ret ⟨[], [], [], some e⟩ := by rw [hmz]
  have hgd := GetDoc_err s w fuel fs mod ver ⟨[], [], [], some e⟩ e hout rfl
  refine ⟨hout, ⟨.tempDir dir :: pre.map Event.probe, ?_, ?_⟩, by rw [hgd], by rw [hgd]⟩
  · rw [hmz, hpre]; simp
  · intro q hq
    simp only [List.mem_cons, List.mem_map] at hq
    rcases hq with hq | ⟨q1, hq1, hq2⟩
    · exact Event.noConfusion hq
    · simp only [Event.probe.injEq] at hq2
      rw [← hq2]; exact hnon q1 hq1

/-! ## Where the loop does end -/

theorem headD_take (out : GoString) (n : Nat) (h : isPathSeparator (out.headD '.') = false) :
    isPathSeparator ((out.take n).headD '.') = false := by
  cases out with
  | nil => simpa using h
  | cons c t =>
    cases n with
    | zero => rfl
    | succ n => simpa using h

theorem headD_append (out more : GoString) (hne : out ≠ [])
    (h : isPathSeparator (out.headD '.') = false) :
    isPathSeparator ((out ++ more).headD '.') = false := by
  cases out with
  | nil => exact absurd rfl hne
  | cons c t => simpa using h

/-- Cleaning an unrooted path never writes a leading separator. -/
theorem cleanLoop_unrooted :
    ∀ (fuel : Nat) (rest out : GoString) (dotdot : Nat),
      isPathSeparator (out.headD '.') = false →
      isPathSeparator ((cleanLoop false fuel rest out dotdot).headD '.') = false := by
  intro fuel
  induction fuel with
  | zero => intro rest out dotdot h; simpa [cleanLoop] using h
  | succ fuel ih =>
    intro rest out dotdot h
    cases rest with
    | nil => simpa [cleanLoop] using h
    | cons c t =>
      rw [cleanLoop]
      by_cases hsep : isPathSeparator c = true
      · rw [if_pos hsep]; exact ih _ _ _ h
      rw [if_neg hsep]
      by_cases hdot : (c == '.' && (t.isEmpty || isPathSeparator (t.headD '/'))) = true
      · rw [if_pos hdot]; exact ih _ _ _ h
      rw [if_neg hdot]
      by_cases hdd : (c == '.' && t.headD '/' == '.' &&
          (t.tail.isEmpty || isPathSeparator (t.tail.headD '/'))) = true
      · rw [if_pos hdd]
        by_cases hbt : out.length > dotdot
        · rw [if_pos hbt]; exact ih _ _ _ (headD_take _ _ h)
        · rw [if_neg hbt, if_pos (by rfl)]
          apply ih
          by_cases hpos : out.length > 0
          · rw [if_pos hpos, List.append_assoc]
            exact headD_append _ _ (List.length_pos.mp hpos) h
          · rw [if_neg hpos]
            have : out = [] := List.length_eq_zero.mp (by omega)
            rw [this]; rfl
      rw [if_neg hdd]
      apply ih
      by_cases hnil : out = []
      · have hc : (!isPathSeparator c) = true := by simpa using hsep
        simp only [hnil, List.length_nil, List.takeWhile_cons, hc, if_true]
        simpa using hsep
      · have hlen : out.length ≠ 0 := fun h0 => hnil (List.length_eq_zero.mp h0)
        have hadd : ((false && out.length != 1) || (!false && out.length != 0)) = true := by
          simpa using hlen
        simp only [if_pos hadd, List.append_assoc]
        exact headD_append _ _ hnil h

theorem Clean_unrooted (p : GoString) (h : isPathSeparator (p.headD '.') = false) :
    isPathSeparator ((Clean p).headD '.') = false := by
  unfold Clean
  by_cases he : p.isEmpty = true
  · rw [if_pos he]; rfl
  · rw [if_neg he]
    simp only [h, Bool.false_eq_true, if_false]
    have := cleanLoop_unrooted p.length p [] 0 rfl
    split_ifs
    · rfl
    · exact this

theorem rdropWhile_unrooted (p : GoString) (f : Char → Bool)
    (h : isPathSeparator (p.headD '.') = false) :
    isPathSeparator ((p.rdropWhile f).headD '.') = false := by
  have hpre := List.rdropWhile_prefix f p
  obtain ⟨t, ht⟩ := hpre
  cases hd : p.rdropWhile f with
  | nil => rfl
  | cons c u =>
    rw [hd] at ht
    rw [← ht] at h
    simpa using h

/-- The parent of an unrooted path is unrooted. -/
theorem Dir_unrooted (p : GoString) (h : isPathSeparator (p.headD '.') = false) :
    isPathSeparator ((Dir p).headD '.') = false :=
  Clean_unrooted _ (rdropWhile_unrooted p _ h)

theorem Dir_short_unrooted (p : GoString) (hl : p.length ≤ 1)
    (h : isPathSeparator (p.headD '.') = false) : Dir p = ['.'] := by
  rcases Dir_short p hl with h1 | h1
  · exact h1
  · cases p with
    | nil => rfl
    | cons c t =>
      cases t with
      | nil =>
        have hc : isPathSeparator c = false := by simpa using h
        simp [Dir, List.rdropWhile, hc]
        rfl
      | cons d t => simp at hl

/-- On an import path of two bytes or more the slice `mod[len(path)+1:]` is always in
range: the loop never panics. -/
theorem makeZipLoop_no_panic (s : service) (w : World) (mod ver : GoString)
    (h2 : 2 ≤ mod.length) :
    ∀ (fuel j : Nat) (subdir : GoString),
      (makeZipLoop s w mod ver fuel (candidate mod j) subdir).1 ≠ .panic := by
  intro fuel
  induction fuel with
  | zero => intro j subdir h; simp [makeZipLoop] at h
  | succ fuel ih =>
    intro j subdir
    rw [makeZipLoop_succ]
    by_cases hp : candidate mod j = ['.']
    · rw [if_pos hp]; simp
    · rw [if_neg hp]
      cases s.probe w ver (candidate mod j) with
      | fail e => simp
      | resp code b =>
        simp only
        by_cases hc : code = 200
        · rw [if_pos hc]; simp
        · have hl : ¬ (Dir (candidate mod j)).length + 1 > mod.length := by
            have := candidate_length mod h2 j
            simp only [candidate] at this
            omega
          rw [if_neg hc, if_neg hl]
          exact ih (j + 1) _

/-- On an unrooted import path the loop ends: `len(path) + 2` iterations are enough,
whatever the proxy answers. -/
theorem makeZipLoop_terminates (s : service) (w : World) (mod ver : GoString) :
    ∀ (n : Nat) (path subdir : GoString), path.length ≤ n →
      isPathSeparator (path.headD '.') = false →
      ∀ fuel, n + 2 ≤ fuel → (makeZipLoop s w mod ver fuel path subdir).1 ≠ .outOfFuel := by
  have atDot : ∀ fuel subdir, 1 ≤ fuel →
      (makeZipLoop s w mod ver fuel ['.'] subdir).1 ≠ .outOfFuel := by
    intro fuel subdir hf
    cases fuel with
    | zero => omega
    | succ fuel => rw [makeZipLoop_succ, if_pos rfl]; simp
  intro n
  induction n with
  | zero =>
    intro path subdir hlen hun fuel hf
    cases fuel with
    | zero => omega
    | succ fuel =>
      rw [makeZipLoop_succ]
      by_cases hp : path = ['.']
      · rw [if_pos hp]; simp
      · rw [if_neg hp]
        cases s.probe w ver path with
        | fail e => simp
        | resp code b =>
          simp only
          by_cases hc : code = 200
          · rw [if_pos hc]; simp
          · rw [if_neg hc]
            by_cases hl : (Dir path).length + 1 > mod.length
            · rw [if_pos hl]; simp
            · rw [if_neg hl, Dir_short_unrooted path (by omega) hun]
              exact atDot fuel _ (by omega)
  | succ n ih =>
    intro path subdir hlen hun fuel hf
    cases fuel with
    | zero => omega
    | succ fuel =>
      rw [makeZipLoop_succ]
      by_cases hp : path = ['.']
      · rw [if_pos hp]; simp
      · rw [if_neg hp]
        cases s.probe w ver path with
        | fail e => simp
        | resp code b =>
          simp only
          by_cases hc : code = 200
          · rw [if_pos hc]; simp
          · rw [if_neg hc]
            by_cases hl : (Dir path).length + 1 > mod.length
            · rw [if_pos hl]; simp
            · rw [if_neg hl]
              by_cases hshort : path.length ≤ 1
              · rw [Dir_short_unrooted path hshort hun]
                exact atDot fuel _ (by omega)
              · rcases Dir_length path with hd | hd
                · exact ih (Dir path) _ (by omega) (Dir_unrooted path hun) fuel (by omega)
                · exact ih (Dir path) _ (by omega) (Dir_unrooted path hun) fuel (by omega)

/-- What the loop returns comes from a probe: a winner answered 200, a returned error
is the error of a probe. -/
theorem makeZipLoop_result (s : service) (w : World) (mod ver : GoString) :
    ∀ (fuel : Nat) (path subdir : GoString),
      (∀ m sd body, (makeZipLoop s w mod ver fuel path subdir).1 = .found m sd body →
        s.probe w ver m = .resp 200 body) ∧
      (∀ e, (makeZipLoop s w mod ver fuel path subdir).1 = .fetchErr e →
        ∃ p, s.probe w ver p = .fail e) ∧
      (∀ p, p ∈ (makeZipLoop s w mod ver fuel path subdir).2 → p ≠ ['.']) := by
  intro fuel
  induction fuel with
  | zero =>
    intro path subdir
    simp [makeZipLoop]
  | succ fuel ih =>
    intro path subdir
    rw [makeZipLoop_succ]
    by_cases hp : path = ['.']
    · rw [if_pos hp]; simp
    · rw [if_neg hp]
      cases hf : s.probe w ver path with
      | fail e =>
        refine ⟨fun m sd body h => by simp at h, fun e1 h => ⟨path, ?_⟩, fun p h => ?_⟩
        · simp only [LoopResult.fetchErr.injEq] at h
          rw [hf, h]
        · simp only [List.mem_singleton] at h
          rw [h]; exact hp
      | resp code b =>
        simp only
        by_cases hc : code = 200
        · rw [if_pos hc]
          refine ⟨fun m sd body h => ?_, fun e h => by simp at h, fun p h => ?_⟩
          · simp only [LoopResult.found.injEq] at h
            rw [← h.1, ← h.2.2, hf, hc]
          · simp only [List.mem_singleton] at h
            rw [h]; exact hp
        · rw [if_neg hc]
          by_cases hl : (Dir path).length + 1 > mod.length
          · rw [if_pos hl]
            refine ⟨fun m sd body h => by simp at h, fun e h => by simp at h, fun p h => ?_⟩
            simp only [List.mem_singleton] at h
            rw [h]; exact hp
          · rw [if_neg hl]
            obtain ⟨h1, h2, h3⟩ := ih (Dir path) (mod.drop ((Dir path).length + 1))
            refine ⟨h1, h2, fun p h => ?_⟩
            simp only [List.mem_cons] at h
            rcases h with h | h
            · rw [h]; exact hp
            · exact h3 p h

/-- For an unrooted import path of two bytes or more, when every probe answers non-200
the loop ends with the invalid-path error, and `GetDoc` returns it wrapped, with a nil
Documentation, having done nothing but create the scratch directory and probe. -/
theorem GetDoc_exhausted (s : service) (w : World) (fs : FS) (mod ver dir : GoString)
    (h2 : 2 ≤ mod.length) (hun : isPathSeparator (mod.headD '.') = false)
    (hnon : ∀ p, (s.probe w ver p).isNon200 = true)
    (htd : w.TempDir (Replace mod '/' '_' ++ ver) = .ok dir)
    (fuel : Nat) (hf : mod.length + 2 ≤ fuel) :
    (makeZipLoop s w mod ver fuel mod []).1 = .invalidPath ∧
    (s.makeZip w fuel fs mod ver).out =
      .ret ⟨[], [], [], some ("invalid path: ".toList ++ mod)⟩ ∧
    (s.GetDoc w fuel fs mod ver).out =
      .ret ⟨none, some ("could not make zip: ".toList ++ ("invalid path: ".toList ++ mod))⟩ ∧
    (s.GetDoc w fuel fs mod ver).trace =
      .tempDir dir :: (makeZipLoop s w mod ver fuel mod []).2.map Event.probe := by
  have hnp := makeZipLoop_no_panic s w mod ver h2 fuel 0 []
  have hterm := makeZipLoop_terminates s w mod ver mod.length mod [] (le_refl _) hun fuel hf
  obtain ⟨hfound, hfail, _⟩ := makeZipLoop_result s w mod ver fuel mod []
  simp only [candidate] at hnp
  have hloop : (makeZipLoop s w mod ver fuel mod []).1 = .invalidPath := by
    cases hl : (makeZipLoop s w mod ver fuel mod []).1 with
    | invalidPath => rfl
    | outOfFuel => exact absurd hl hterm
    | panic => exact absurd hl hnp
    | fetchErr e =>
      obtain ⟨p, hp⟩ := hfail e hl
      have := hnon p
      rw [hp] at this
      exact absurd this (by simp [FetchResult.isNon200])
    | found m sd body =>
      have := hnon m
      rw [hfound m sd body hl] at this
      exact absurd this (by simp [FetchResult.isNon200])
  have hmz : s.makeZip w fuel fs mod ver =
      ⟨.ret ⟨[], [], [], some ("invalid path: ".toList ++ mod)⟩, dir :: fs,
        .tempDir dir :: (makeZipLoop s w mod ver fuel mod []).2.map Event.probe⟩ := by
    unfold service.makeZip
    rw [htd]
    simp only [hloop]
  have hout : (s.makeZip w fuel fs mod ver).out =
      .ret ⟨[], [], [], some ("invalid path: ".toList ++ mod)⟩ := by rw [hmz]
  have hgd := GetDoc_err s w fuel fs mod ver _ _ hout rfl
  refine ⟨hloop, hout, by rw [hgd], ?_⟩
  rw [hgd, hmz]

/-- After a `makeZip` without error, the scratch directory it created is gone when
`GetDoc` returns, whatever happens to the archive and the builder. -/
theorem GetDoc_removes_scratch (s : service) (w : World) (fuel : Nat) (fs : FS)
    (mod ver : GoString) (r : MakeZipRet)
    (hmz : (s.makeZip w fuel fs mod ver).out = .ret r) (herr : r.err = none) :
    r.dir ∉ (s.GetDoc w fuel fs mod ver).fs := by
  rw [GetDoc_ok s w fuel fs mod ver r hmz herr]
  simp [RemoveAll]

/-! ## Runs on concrete inputs -/

theorem scenario_never_fails (p : GoString) : (svc.probe scenarioWorld v1 p).isFail = false := by
  unfold service.probe service.fetch scenarioWorld calmWorld
  simp only
  split_ifs <;> rfl

/-- Witness of C1: the end-to-end scenario, where only `example.com/mod` has a zip. -/
theorem makeZip_stops_at_first_200_witness :
    (∃ j, candidate "example.com/mod/sub".toList j ≠ ['.'] ∧
      (svc.probe scenarioWorld v1 (candidate "example.com/mod/sub".toList j)).is200 = true) ∧
    ∃ k body,
      svc.probe scenarioWorld v1 (candidate "example.com/mod/sub".toList k) = .resp 200 body ∧
      candidate "example.com/mod/sub".toList k ≠ ['.'] ∧
      (∀ j, j < k →
        (svc.probe scenarioWorld v1 (candidate "example.com/mod/sub".toList j)).isNon200 = true) ∧
      ((List.range (k + 1)).map (candidate "example.com/mod/sub".toList)).Nodup ∧
      ∀ fuel, k < fuel → ∃ subdir,
        makeZipLoop svc scenarioWorld "example.com/mod/sub".toList v1 fuel
            "example.com/mod/sub".toList [] =
          (.found (candidate "example.com/mod/sub".toList k) subdir body,
            (List.range (k + 1)).map (candidate "example.com/mod/sub".toList)) :=
  ⟨⟨1, by decide, by decide⟩,
    makeZip_stops_at_first_200 svc scenarioWorld "example.com/mod/sub".toList v1
      scenario_never_fails ⟨1, by decide, by decide⟩⟩

/-- Counterexample to C1 as stated: for the import path `ab` and a proxy whose only zip
is at `"."`, the candidate `Dir("ab") = "."` of the chain answers 200, yet the loop
probes `ab` alone and ends with the invalid-path error, not at that candidate. -/
theorem makeZip_never_probes_dot :
    candidate "ab".toList 1 = ['.'] ∧
    (svc.probe dotWorld v1 (candidate "ab".toList 1)).is200 = true ∧
    makeZipLoop svc dotWorld "ab".toList v1 5 "ab".toList [] =
      (.invalidPath, ["ab".toList]) := by
  decide

/-- The end-to-end scenario gives module root `example.com/mod` and sub-package
`sub`. -/
theorem subpackage_of_winning_probe_witness :
    candidate "example.com/mod/sub".toList 1 = "example.com/mod".toList ∧
    (svc.GetDoc scenarioWorld 5 [] "example.com/mod/sub".toList v1).out =
      .ret ⟨some ⟨[], v1, ["v1.0.0".toList, "v1.1.0".toList, "v2.0.0".toList],
        "example.com/mod".toList, "example.com/mod/sub".toList, []⟩, none⟩ ∧
    moduleRoot "example.com/mod/sub".toList "sub".toList =
      candidate "example.com/mod/sub".toList 1 ∧
    ∀ fuel, 1 < fuel →
      makeZipLoop svc scenarioWorld "example.com/mod/sub".toList v1 fuel
          "example.com/mod/sub".toList [] =
        (.found (candidate "example.com/mod/sub".toList 1) "sub".toList (.ok "PK".toList),
          (List.range (1 + 1)).map (candidate "example.com/mod/sub".toList)) ∧
      ∀ fs r, (svc.makeZip scenarioWorld fuel fs "example.com/mod/sub".toList v1).out = .ret r →
        r.err = none →
        r.subdir = "sub".toList ∧
        Event.startVersions (candidate "example.com/mod/sub".toList 1) ∈
          (svc.GetDoc scenarioWorld fuel fs "example.com/mod/sub".toList v1).trace ∧
        ∀ doc, (svc.GetDoc scenarioWorld fuel fs "example.com/mod/sub".toList v1).out =
            .ret ⟨some doc, none⟩ →
          doc.ModuleRoot = scenarioWorld.DecodePath (candidate "example.com/mod/sub".toList 1) :=
  ⟨by decide, by decide,
    subpackage_of_winning_probe svc scenarioWorld "example.com/mod/sub".toList v1 1
      (.ok "PK".toList) "sub".toList
      (fun j hj => by
        have h0 : j = 0 := by omega
        subst h0
        decide)
      (by decide) (by decide) (Or.inr ⟨by decide, by decide⟩)⟩

/-- C2 (failing input): for the import path `a/b/`, whose prefix `a/b` is the winning
probe, `makeZip` returns the empty sub-package, so `GetDoc` skips the branch that trims
the separator and takes the whole `a/b/`, not the winner `a/b`, as module root: the
Version Lister is started on `a/b/` and the returned page carries `a/b/`.  For
the import path `a/b/c` with the same winner the trimming branch gives `a/b`. -/
theorem moduleRoot_keeps_trailing_separator :
    makeZipLoop svc abWorld "a/b/".toList v1 5 "a/b/".toList [] =
      (.found "a/b".toList [] (.ok "PK".toList), ["a/b/".toList, "a/b".toList]) ∧
    List.isPrefixOf "a/b".toList "a/b/".toList = true ∧
    moduleRoot "a/b/".toList [] = "a/b/".toList ∧
    Event.startVersions "a/b/".toList ∈ (svc.GetDoc abWorld 5 [] "a/b/".toList v1).trace ∧
    (svc.GetDoc abWorld 5 [] "a/b/".toList v1).out =
      .ret ⟨some ⟨[], v1, [], "a/b/".toList, "a/b/".toList, []⟩, none⟩ ∧
    makeZipLoop svc abWorld "a/b/c".toList v1 5 "a/b/c".toList [] =
      (.found "a/b".toList "c".toList (.ok "PK".toList), ["a/b/c".toList, "a/b".toList]) ∧
    moduleRoot "a/b/c".toList "c".toList = "a/b".toList := by
  decide

/-- C3 (failing input): for the one-byte import path `a` and a proxy that answers 404
to every probe, `makeZip` and `GetDoc` do not return the invalid-path error: the slice
`mod[len(path)+1:]` panics after the first probe. -/
theorem GetDoc_panics_on_one_byte_path :
    (svc.probe emptyWorld v1 "a".toList).isNon200 = true ∧
    (svc.makeZip emptyWorld 5 [] "a".toList v1).out = .panic ∧
    (svc.GetDoc emptyWorld 5 [] "a".toList v1).out = .panic := by
  decide

/-- C4 (failing input): for the import path `ab` and a proxy that answers 404 to every
probe, `GetDoc` returns the wrapped invalid-path error while the scratch directory that
`makeZip` created still exists. -/
theorem GetDoc_leaks_scratch_dir :
    svc.GetDoc emptyWorld 5 [] "ab".toList v1 =
      ⟨.ret ⟨none, some "could not make zip: invalid path: ab".toList⟩,
        ["/tmp/abv1.0.0".toList],
        [.tempDir "/tmp/abv1.0.0".toList, .probe "ab".toList]⟩ ∧
    "/tmp/abv1.0.0".toList ∈ (svc.GetDoc emptyWorld 5 [] "ab".toList v1).fs := by
  decide

/-- Witness of C5: the body `v1.0.0\nv1.1.0\nv2.0.0\n` yields the three versions, and
the empty body yields the empty list. -/
theorem getVersions_delivers_lines_witness :
    svc.fetch scenarioWorld "example.com/mod".toList "list".toList [] =
      .resp 200 (.ok "v1.0.0\nv1.1.0\nv2.0.0\n".toList) ∧
    svc.getVersions scenarioWorld "example.com/mod".toList =
      [["v1.0.0".toList, "v1.1.0".toList, "v2.0.0".toList]] ∧
    svc.fetch blankListWorld "m".toList "list".toList [] = .resp 200 (.ok []) ∧
    svc.getVersions blankListWorld "m".toList = [[]] :=
  ⟨by decide,
    (getVersions_delivers_lines svc scenarioWorld "example.com/mod".toList
      "v1.0.0\nv1.1.0\nv2.0.0\n".toList (by decide)).2
      ["v1.0.0".toList, "v1.1.0".toList, "v2.0.0".toList] (by decide) (by decide),
    by decide,
    (getVersions_delivers_lines svc blankListWorld "m".toList [] (by decide)).2 []
      (by decide) (by decide)⟩

/-- Counterexample to C5 as stated: the 200 body `v1.0.0\nv1.1.0`, whose last line has
no newline, yields `v1.0.0` alone; the version `v1.1.0` present in the body is lost. -/
theorem getVersions_loses_unterminated_line :
    svc.fetch unterminatedWorld "m".toList "list".toList [] =
      .resp 200 (.ok "v1.0.0\nv1.1.0".toList) ∧
    Split '\n' "v1.0.0\nv1.1.0".toList = ["v1.0.0".toList, "v1.1.0".toList] ∧
    svc.getVersions unterminatedWorld "m".toList = [["v1.0.0".toList]] := by
  decide

/-- Witness of C6: the proxy has the zip of `example.com/mod` and answers 404 to the
version-list request. -/
theorem GetDoc_survives_version_failure_witness :
    (svc.makeZip noListWorld 5 [] "example.com/mod/sub".toList v1).out =
      .ret ⟨"/tmp/example.com_mod_subv1.0.0".toList,
        "/tmp/example.com_mod_subv1.0.0/source.zip".toList, "sub".toList, none⟩ ∧
    svc.fetch noListWorld (moduleRoot "example.com/mod/sub".toList "sub".toList)
      "list".toList [] = .resp 404 (.ok []) ∧
    svc.getVersions noListWorld (moduleRoot "example.com/mod/sub".toList "sub".toList) = [] ∧
    (∀ m, (svc.getVersions noListWorld m).length ≤ 1) ∧
    ∃ doc, (svc.GetDoc noListWorld 5 [] "example.com/mod/sub".toList v1).out =
      .ret ⟨some doc, none⟩ ∧ doc.Versions = [] :=
  ⟨by decide, by decide,
    GetDoc_survives_version_failure svc noListWorld 5 [] "example.com/mod/sub".toList v1
      ⟨"/tmp/example.com_mod_subv1.0.0".toList,
        "/tmp/example.com_mod_subv1.0.0/source.zip".toList, "sub".toList, none⟩
      [⟨"a.go".toList, none, .ok "package a".toList⟩]
      [⟨"a.go".toList, "package a".toList⟩]
      ⟨[], v1, [], [], "example.com/mod/sub".toList, []⟩
      (by decide) rfl rfl rfl rfl (by decide) rfl
      (Or.inr (Or.inl ⟨404, .ok [], by decide, by decide⟩))⟩

/-- Witness of C7: the connection breaks on the probe of `a/b`, the second candidate of
the import path `a/b/c`. -/
theorem transport_error_is_terminal_witness :
    Event.probe "a/b".toList ∈ (svc.makeZip brokenWorld 5 [] "a/b/c".toList v1).trace ∧
    svc.probe brokenWorld v1 "a/b".toList = .fail "connection reset".toList ∧
    (svc.makeZip brokenWorld 5 [] "a/b/c".toList v1).out =
      .ret ⟨[], [], [], some "connection reset".toList⟩ ∧
    (∃ pre, (svc.makeZip brokenWorld 5 [] "a/b/c".toList v1).trace =
        pre ++ [.probe "a/b".toList] ∧
      ∀ q, Event.probe q ∈ pre → (svc.probe brokenWorld v1 q).isNon200 = true) ∧
    (svc.GetDoc brokenWorld 5 [] "a/b/c".toList v1).out =
      .ret ⟨none, some ("could not make zip: ".toList ++ "connection reset".toList)⟩ ∧
    (svc.GetDoc brokenWorld 5 [] "a/b/c".toList v1).trace =
      (svc.makeZip brokenWorld 5 [] "a/b/c".toList v1).trace :=
  ⟨by decide, by decide,
    transport_error_is_terminal svc brokenWorld 5 [] "a/b/c".toList v1 "a/b".toList
      "connection reset".toList (by decide) (by decide)⟩

/-- Witness of C8: the end-to-end scenario. -/
theorem versions_start_after_download_witness :
    (svc.makeZip scenarioWorld 5 [] "example.com/mod/sub".toList v1).out =
      .ret ⟨"/tmp/example.com_mod_subv1.0.0".toList,
        "/tmp/example.com_mod_subv1.0.0/source.zip".toList, "sub".toList, none⟩ ∧
    ∃ pre post,
      (svc.GetDoc scenarioWorld 5 [] "example.com/mod/sub".toList v1).trace =
        pre ++ .startVersions (moduleRoot "example.com/mod/sub".toList "sub".toList) ::
          .openArchive "/tmp/example.com_mod_subv1.0.0/source.zip".toList :: post ∧
      pre = (svc.makeZip scenarioWorld 5 [] "example.com/mod/sub".toList v1).trace ∧
      Event.copyBody ∈ pre ∧
      (∀ e, e ∈ pre → e.isRetrieval = true) ∧
      (∀ e, e ∈ post → e.isRetrieval = false ∧ e.isStart = false) :=
  ⟨by decide,
    versions_start_after_download svc scenarioWorld 5 [] "example.com/mod/sub".toList v1
      ⟨"/tmp/example.com_mod_subv1.0.0".toList,
        "/tmp/example.com_mod_subv1.0.0/source.zip".toList, "sub".toList, none⟩
      (by decide) rfl⟩

/-- Counterexample to C8 as stated: in the end-to-end scenario resolution succeeds and
the archive body is streamed into the scratch file before the Version Lister is
started, not after. -/
theorem download_precedes_version_start :
    (svc.GetDoc scenarioWorld 5 [] "example.com/mod/sub".toList v1).trace =
      [.tempDir "/tmp/example.com_mod_subv1.0.0".toList,
        .probe "example.com/mod/sub".toList,
        .probe "example.com/mod".toList,
        .createFile "/tmp/example.com_mod_subv1.0.0/source.zip".toList,
        .copyBody,
        .startVersions "example.com/mod".toList,
        .openArchive "/tmp/example.com_mod_subv1.0.0/source.zip".toList,
        .readEntry "a.go".toList,
        .build, .licenses, .recvVersions,
        .removeAll "/tmp/example.com_mod_subv1.0.0".toList] ∧
    (svc.GetDoc scenarioWorld 5 [] "example.com/mod/sub".toList v1).trace.indexOf .copyBody <
      (svc.GetDoc scenarioWorld 5 [] "example.com/mod/sub".toList v1).trace.indexOf
        (.startVersions "example.com/mod".toList) := by
  decide

theorem makeZipLoop_at_root (fuel : Nat) :
    ∀ subdir, (makeZipLoop svc emptyWorld "/a".toList v1 fuel ['/'] subdir).1 = .outOfFuel ∧
      (makeZipLoop svc emptyWorld "/a".toList v1 fuel ['/'] subdir).2.length = fuel := by
  induction fuel with
  | zero => intro subdir; exact ⟨rfl, rfl⟩
  | succ fuel ih =>
    intro subdir
    rw [makeZipLoop_succ, if_neg (by decide)]
    have hp : svc.probe emptyWorld v1 ['/'] = .resp 404 (.ok []) := rfl
    rw [hp]
    simp only [Dir_root]
    rw [if_neg (by decide), if_neg (by decide)]
    exact ⟨(ih _).1, by rw [List.length_cons, (ih _).2]⟩

/-- C9 (failing input): for the import path `/a` and a proxy that answers 404 to every
probe, the loop of `makeZip` never ends: after `/a` the candidate is `/`, and
`Dir("/")` is `/` again, so whatever the number of iterations allowed, the loop has
made that many probes and is still running. -/
theorem makeZipLoop_spins_on_root (fuel : Nat) :
    (makeZipLoop svc emptyWorld "/a".toList v1 fuel "/a".toList []).1 = .outOfFuel ∧
    (makeZipLoop svc emptyWorld "/a".toList v1 fuel "/a".toList []).2.length = fuel := by
  cases fuel with
  | zero => exact ⟨rfl, rfl⟩
  | succ fuel =>
    rw [makeZipLoop_succ, if_neg (by decide)]
    have hp : svc.probe emptyWorld v1 "/a".toList = .resp 404 (.ok []) := rfl
    have hd : Dir "/a".toList = ['/'] := by decide
    rw [hp]
    simp only [hd]
    rw [if_neg (by decide), if_neg (by decide)]
    exact ⟨(makeZipLoop_at_root fuel _).1,
      by rw [List.length_cons, (makeZipLoop_at_root fuel _).2]⟩

/-- C10 (failing input): for the one-byte import path `a` (and likewise for the empty
path and for `/`) with a first probe answering 404, `len(Dir(path)) + 1` is 2 and
exceeds `len(mod)`, so the slice `mod[len(path)+1:]` is out of range and the loop
panics. -/
theorem makeZipLoop_slice_out_of_range :
    (Dir "a".toList).length + 1 > "a".toList.length ∧
    makeZipLoop svc emptyWorld "a".toList v1 5 "a".toList [] = (.panic, ["a".toList]) ∧
    makeZipLoop svc emptyWorld [] v1 5 [] [] = (.panic, [[]]) ∧
    makeZipLoop svc emptyWorld ['/'] v1 5 ['/'] [] = (.panic, [['/']]) := by
  decide

end Moddoc
